import Mathlib

/-!
# Verification of the numerical core of the `coursera2025` notebooks

This file gives a shallow embedding, over `ℚ` (and over `ℝ` for the
Chebyshev differentiation matrix, which uses `cos`), of the matrix-assembly
cells and time-extrapolation loops of the notebooks:

* `W9_se_homo_1d_solution.ipynb`   (spectral elements, homogeneous medium)
* `W9_se_hetero_1d_solution.ipynb` (spectral elements, heterogeneous medium)
* `W7_fe_elastic_1d_solution.ipynb` (linear finite elements)
* `W5_ps_fourier_acoustic_1d.ipynb` and `W5_ps_cheby_elastic_1d_solution.ipynb`
  (pseudospectral methods)

NumPy arrays are modelled as total functions (`ℕ → ℚ`, matrices as
`ℕ → ℕ → ℚ`); indices outside the array's extent are never read by the
embedded code paths.  Loop counters that the Python code starts at `-1`
(`k`, `m` in the W9 global-mass assemblies) are kept as `ℤ`, and the mass
vectors they index are `ℤ → ℚ`.  In-place writes become pointwise
functional updates, and `for` loops become `List.foldl` over `List.range`.
Quantities produced outside the repository's source (the GLL weights `w`
from `gll.py`, the Lagrange-derivative table `l1d` from `lagrange1st.py`,
the Ricker wavelet, NumPy's FFT and `np.linalg.inv`) enter as parameters;
the properties the development needs of them (weights summing to 2,
basis-derivative columns summing to 0) appear as explicit hypotheses.
-/

/-- Python/NumPy read `l[i]` for an `int` index `i` that may be negative:
a negative index counts from the end of the array (`l[-1]` is the last
element).  Out-of-range reads are never exercised by the embedded code. -/
def pyGetD (l : List ℚ) (i : ℤ) : ℚ :=
  if 0 ≤ i then l.getD i.toNat 0
  else if (-i).toNat ≤ l.length then l.getD (l.length - (-i).toNat) 0
  else 0

/-- Python/NumPy effective index for a write `a[i] = v`: a negative `i`
wraps to `n + i` where `n` is the array length. -/
def pyIdx (n : ℕ) (i : ℤ) : ℤ :=
  if i < 0 then n + i else i

/-- NumPy's `A @ v` for an `n × n` matrix stored as a total function. -/
def matVec (n : ℕ) (A : ℕ → ℕ → ℚ) (v : ℕ → ℚ) : ℕ → ℚ :=
  fun a => ∑ b in Finset.range n, A a b * v b

section W7
/-!
## `W7_fe_elastic_1d_solution.ipynb`: finite-element mass and stiffness

The notebook fills the interior band `1 ≤ i, j ≤ nx-2` of `M` and `K`
with an `if/elif` chain and afterwards sets the two corner diagonal
entries.  Every cell is written at most once (the corners are not in the
interior range), so the assembled arrays are embedded directly as the
case split the loops realise.  `ro`, `mu` are the per-node material
arrays, `h` the element-size array `h = np.diff(x)`.
-/

/-- Mass matrix `M` of the W7 notebook ("Mass matrix M_ij" cell). -/
def W7M (ro h : ℕ → ℚ) (nx : ℕ) : ℕ → ℕ → ℚ := fun i j =>
  if i = 0 ∧ j = 0 then ro 0 * h 0 / 3
  else if i = nx - 1 ∧ j = nx - 1 then ro (nx - 1) * h (nx - 2) / 3
  else if 1 ≤ i ∧ i ≤ nx - 2 ∧ 1 ≤ j ∧ j ≤ nx - 2 then
    (if j = i then (ro (i - 1) * h (i - 1) + ro i * h i) / 3
     else if j = i + 1 then ro i * h i / 6
     else if j = i - 1 then ro (i - 1) * h (i - 1) / 6
     else 0)
  else 0

/-- Stiffness matrix `K` of the W7 notebook ("Stiffness matrix Kij" cell). -/
def W7K (mu h : ℕ → ℚ) (nx : ℕ) : ℕ → ℕ → ℚ := fun i j =>
  if i = 0 ∧ j = 0 then mu 0 / h 0
  else if i = nx - 1 ∧ j = nx - 1 then mu (nx - 1) / h (nx - 2)
  else if 1 ≤ i ∧ i ≤ nx - 2 ∧ 1 ≤ j ∧ j ≤ nx - 2 then
    (if i = j then mu (i - 1) / h (i - 1) + mu i / h i
     else if i = j + 1 then -(mu (i - 1) / h (i - 1))
     else if i + 1 = j then -(mu i / h i)
     else 0)
  else 0

end W7

section W9Defs
/-!
## `W9_se_homo_1d.ipynb` / `W9_se_hetero_1d.ipynb`: global assembly

The global mass assembly walks a counter `k` initialised to `-1` over all
`(element, local node)` pairs, decrementing once at the first local node
of every element after the first so that adjacent elements share a global
degree of freedom.  The heterogeneous variant additionally walks a
counter `m` over global nodes to sample the density array while filling
the elemental vector `Me` in place.  Both counters are kept as `ℤ` and
the global mass vector as `ℤ → ℚ`, exactly mirroring the Python code.
-/

/-- State of the homogeneous global-mass loop: counter `k` and the global
mass vector `M` (allocated as `np.zeros(2*ng)`; entries outside the
written range stay `0`). -/
structure SeMassSt where
  k : ℤ
  M : ℤ → ℚ

/-- Elemental mass vector of the homogeneous notebook:
`Me[i] = rho * w[i] * J`. -/
def MeHomo (rho J : ℚ) (w : ℕ → ℚ) : ℕ → ℚ := fun i => rho * w i * J

/-- Body of the homogeneous global-mass assembly for the (1-based)
element `i`: `for j in range(0, N+1): k += 1; if i>1 and j==0: k -= 1;
M[k] += Me[j]`. -/
def seHomoMassElem (Me : ℕ → ℚ) (N i : ℕ) (st : SeMassSt) : SeMassSt :=
  (List.range (N + 1)).foldl
    (fun st j =>
      let k1 := st.k + 1
      let k2 := if 1 < i ∧ j = 0 then k1 - 1 else k1
      ⟨k2, fun g => if g = k2 then st.M g + Me j else st.M g⟩)
    st

/-- Homogeneous global mass assembly ("Global Mass matrix" cell of the
homogeneous W9 notebook): `k = -1; for i in range(1, ne+1): ...`. -/
def seHomoMass (rho J : ℚ) (w : ℕ → ℚ) (N ne : ℕ) : SeMassSt :=
  (List.range ne).foldl
    (fun st i1 => seHomoMassElem (MeHomo rho J w) N (i1 + 1) st)
    ⟨-1, fun _ => 0⟩

/-- State of the heterogeneous global-mass loop: counters `k` and `m`,
the elemental vector `Me` (overwritten element by element), and the
global mass vector `M`. -/
structure HetMassSt where
  k : ℤ
  m : ℤ
  Me : ℕ → ℚ
  M : ℤ → ℚ

/-- Body of the heterogeneous global-mass assembly for the (1-based)
element `i`: first `for l in range(0, N+1): m += 1; Me[l] = rho[m]*w[l]*J`
then `m -= 1`, then the same `k`-walk as the homogeneous case. -/
def seHetMassElem (rho : ℤ → ℚ) (w : ℕ → ℚ) (J : ℚ) (N i : ℕ)
    (st : HetMassSt) : HetMassSt :=
  let st1 := (List.range (N + 1)).foldl
    (fun st l =>
      { st with
        m := st.m + 1
        Me := fun x => if x = l then rho (st.m + 1) * w l * J else st.Me x })
    st
  let st2 : HetMassSt := ⟨st1.k, st1.m - 1, st1.Me, st1.M⟩
  (List.range (N + 1)).foldl
    (fun st j =>
      let k1 := st.k + 1
      let k2 := if 1 < i ∧ j = 0 then k1 - 1 else k1
      { st with
        k := k2
        M := fun g => if g = k2 then st.M g + st.Me j else st.M g })
    st2

/-- Heterogeneous global mass assembly ("Global Mass matrix" cell of the
heterogeneous W9 notebook). -/
def seHetMass (rho : ℤ → ℚ) (w : ℕ → ℚ) (J : ℚ) (N ne : ℕ) : HetMassSt :=
  (List.range ne).foldl
    (fun st i1 => seHetMassElem rho w J N (i1 + 1) st)
    ⟨-1, -1, fun _ => 0, fun _ => 0⟩

/-- Elemental stiffness matrix of the homogeneous W9 notebook:
`Ke[i,j] = sum over k of mu*w[k]*Ji*l1d[i,k]*l1d[j,k]` (triple loop
accumulating into `Ke` initialised to zeros). -/
def KeHomoM (mu Ji : ℚ) (w : ℕ → ℚ) (l1d : ℕ → ℕ → ℚ) (N : ℕ) :
    ℕ → ℕ → ℚ :=
  fun i j => ∑ k in Finset.range (N + 1), mu * w k * Ji * l1d i k * l1d j k

/-- Elemental stiffness matrix of the heterogeneous W9 notebook for the
1-based element `e` (`xe = (e-1)*N`): after shifting the loop indices by
one, `Ke[i,j] = sum over k of mu[k+xe]*w[k]*Ji^2*J*l1d[i,k]*l1d[j,k]`. -/
def KeHetM (mu w : ℕ → ℚ) (Ji J : ℚ) (l1d : ℕ → ℕ → ℚ) (N e : ℕ) :
    ℕ → ℕ → ℚ :=
  fun i j => ∑ k in Finset.range (N + 1),
    mu (k + (e - 1) * N) * w k * Ji ^ 2 * J * l1d i k * l1d j k

/-- The double loop `for i in range(-1,N): for j in range(-1,N):
K[i0+i, j0+j] = Ke[i+1, j+1]` of the homogeneous assembly, with indices
shifted by one so that rows/columns run over `base + i'`, `i' ≤ N`,
where `base = i0 - 1 = (k-1)*N`. -/
def blockW (Ke : ℕ → ℕ → ℚ) (N base : ℕ) (K : ℕ → ℕ → ℚ) : ℕ → ℕ → ℚ :=
  (List.range (N + 1)).foldl
    (fun K i =>
      (List.range (N + 1)).foldl
        (fun K j => fun a b =>
          if a = base + i ∧ b = base + j then Ke i j else K a b)
        K)
    K

/-- The accumulating double loop `K[i0+i, j0+j] += Ke[i+1, j+1]` of the
heterogeneous assembly, likewise index-shifted. -/
def blockAddW (B : ℕ → ℕ → ℚ) (N base : ℕ) (K : ℕ → ℕ → ℚ) : ℕ → ℕ → ℚ :=
  (List.range (N + 1)).foldl
    (fun K i =>
      (List.range (N + 1)).foldl
        (fun K j => fun a b =>
          if a = base + i ∧ b = base + j then
            K (base + i) (base + j) + B i j
          else K a b)
        K)
    K

/-- First stage of the homogeneous global stiffness assembly: assign each
element's block ("Values except at element boundaries" loop, elements
`k = 1..ne`, block origin `(k-1)*N`). -/
def seHomoKAssign (Ke : ℕ → ℕ → ℚ) (N ne : ℕ) : ℕ → ℕ → ℚ :=
  (List.range ne).foldl
    (fun K k1 => blockW Ke N (k1 * N) K)
    (fun _ _ => 0)

/-- Homogeneous global stiffness matrix: block assignment followed by the
boundary patch `for k in range(2, ne+1): K[(k-1)*N, (k-1)*N] =
Ke[0,0] + Ke[N,N]`. -/
def seHomoK (Ke : ℕ → ℕ → ℚ) (N ne : ℕ) : ℕ → ℕ → ℚ :=
  (List.range (ne - 1)).foldl
    (fun K k2 => fun a b =>
      if a = (k2 + 1) * N ∧ b = (k2 + 1) * N then Ke 0 0 + Ke N N
      else K a b)
    (seHomoKAssign Ke N ne)

/-- Accumulating global assembly from per-element blocks `B e1`
(`e1 = e - 1` zero-based), block origin `e1 * N`. -/
def accAssemble (B : ℕ → ℕ → ℕ → ℚ) (N ne : ℕ) : ℕ → ℕ → ℚ :=
  (List.range ne).foldl
    (fun K e1 => blockAddW (B e1) N (e1 * N) K)
    (fun _ _ => 0)

/-- Heterogeneous global stiffness matrix ("Global Stiffness Matrix" cell
of the heterogeneous W9 notebook): per element, recompute the elemental
block and add it into the global matrix with `+=`. -/
def seHetK (mu w : ℕ → ℚ) (Ji J : ℚ) (l1d : ℕ → ℕ → ℚ) (N ne : ℕ) :
    ℕ → ℕ → ℚ :=
  accAssemble (fun e1 => KeHetM mu w Ji J l1d N (e1 + 1)) N ne

/-- The (zero-based) element `e1` covers the global matrix cell `(a, b)`:
both indices lie in its block `[e1*N, e1*N + N]`. -/
def covP (N a b : ℕ) : ℕ → Prop := fun e1 =>
  e1 * N ≤ a ∧ a ≤ e1 * N + N ∧ e1 * N ≤ b ∧ b ≤ e1 * N + N

instance covP.decPred (N a b : ℕ) : DecidablePred (covP N a b) := fun e1 => by
  unfold covP; infer_instance

end W9Defs

section Loops
/-!
## Time-extrapolation loops

Each notebook's `for it in range(nt):` loop becomes a fold of a step
function over `List.range nt`.  The assembled matrices, the source time
series and the various scalars enter the step as parameters, exactly as
they are free variables of the Python loop body.  The snapshot arrays
(`u_results` etc., preallocated as `np.zeros((ceil(nt/idisp), ...))`) are
modelled as `ℕ → ℕ → ℚ` starting from the zero function, with row
`it/idisp` overwritten whenever `it % idisp == 0`.
-/

/-- Per-step force vector of both W9 spectral-element loops:
`f = np.zeros(ng); if it < len(src): f[isrc-1] = src[it-1]`, with NumPy
index semantics for `isrc-1` (write) and `src[it-1]` (read: at `it = 0`
this reads `src[-1]`, the last sample). -/
def forceVec (src : List ℚ) (isrc ng : ℕ) (it : ℕ) : ℕ → ℚ := fun g =>
  if it < src.length ∧ (g : ℤ) = pyIdx ng ((isrc : ℤ) - 1) then
    pyGetD src ((it : ℤ) - 1)
  else 0

/-- The extrapolation formula shared by the three matrix-based loops:
`dt**2 * Minv @ (f - K @ u) + 2*u - uold`. -/
def seStep (Minv K : ℕ → ℕ → ℚ) (ng : ℕ) (dt : ℚ) (f u uold : ℕ → ℚ) :
    ℕ → ℚ := fun g =>
  dt ^ 2 * matVec ng Minv (fun x => f x - matVec ng K u x) g
    + 2 * u g - uold g

/-- Loop state of the homogeneous W9 time loop: current and previous
fields and the snapshot array `u_results`. -/
structure SeSt where
  u : ℕ → ℚ
  uold : ℕ → ℚ
  res : ℕ → ℕ → ℚ

/-- One iteration of the homogeneous W9 time loop: build `f`, extrapolate,
rotate `uold, u = u, unew`, and record row `it/idisp` of `u_results`
whenever `it % idisp == 0`. -/
def seHomoStep (Minv K : ℕ → ℕ → ℚ) (src : List ℚ) (isrc ng idisp : ℕ)
    (dt : ℚ) (it : ℕ) (s : SeSt) : SeSt :=
  let unew := seStep Minv K ng dt (forceVec src isrc ng it) s.u s.uold
  { u := unew
    uold := s.u
    res := if it % idisp = 0 then
        fun r c => if r = it / idisp then unew c else s.res r c
      else s.res }

/-- The homogeneous W9 time loop after `n` iterations (fields start at
zero, as does the preallocated snapshot array). -/
def seHomoRun (Minv K : ℕ → ℕ → ℚ) (src : List ℚ) (isrc ng idisp : ℕ)
    (dt : ℚ) (n : ℕ) : SeSt :=
  (List.range n).foldl
    (fun s it => seHomoStep Minv K src isrc ng idisp dt it s)
    ⟨fun _ => 0, fun _ => 0, fun _ _ => 0⟩

/-- Loop state of the heterogeneous W9 time loop, which additionally
appends every new field to the list `x_t`. -/
structure SeStX where
  u : ℕ → ℚ
  uold : ℕ → ℚ
  xt : List (ℕ → ℚ)
  res : ℕ → ℕ → ℚ

/-- One iteration of the heterogeneous W9 time loop (same extrapolation,
plus `x_t.append(u)`). -/
def seHetStep (Minv K : ℕ → ℕ → ℚ) (src : List ℚ) (isrc ng idisp : ℕ)
    (dt : ℚ) (it : ℕ) (s : SeStX) : SeStX :=
  let unew := seStep Minv K ng dt (forceVec src isrc ng it) s.u s.uold
  { u := unew
    uold := s.u
    xt := s.xt ++ [unew]
    res := if it % idisp = 0 then
        fun r c => if r = it / idisp then unew c else s.res r c
      else s.res }

/-- The heterogeneous W9 time loop after `n` iterations. -/
def seHetRun (Minv K : ℕ → ℕ → ℚ) (src : List ℚ) (isrc ng idisp : ℕ)
    (dt : ℚ) (n : ℕ) : SeStX :=
  (List.range n).foldl
    (fun s it => seHetStep Minv K src isrc ng idisp dt it s)
    ⟨fun _ => 0, fun _ => 0, [], fun _ _ => 0⟩

/-- Loop state of the W7 time loop: finite-element field `u` and
finite-difference comparison field `p`, each with previous value and
snapshot array. -/
structure FeSt where
  u : ℕ → ℚ
  uold : ℕ → ℚ
  p : ℕ → ℚ
  pold : ℕ → ℚ
  resU : ℕ → ℕ → ℚ
  resP : ℕ → ℕ → ℚ

/-- One iteration of the W7 time loop:
`unew = dt**2 * Minv @ (f*src[it] - K @ u) + 2*u - uold` and
`pnew = dt**2 * Mfd @ (f/dx*src[it] + D @ p) + 2*p - pold`, each followed
by rotation, then snapshots of both fields at stride `idisp`. -/
def feStep (Minv K Mfd D : ℕ → ℕ → ℚ) (fvec : ℕ → ℚ) (srcf : ℕ → ℚ)
    (nx idisp : ℕ) (dt dx : ℚ) (it : ℕ) (s : FeSt) : FeSt :=
  let unew := seStep Minv K nx dt (fun x => fvec x * srcf it) s.u s.uold
  let pnew := fun g =>
    dt ^ 2 * matVec nx Mfd (fun x => fvec x / dx * srcf it
      + matVec nx D s.p x) g + 2 * s.p g - s.pold g
  { u := unew
    uold := s.u
    p := pnew
    pold := s.p
    resU := if it % idisp = 0 then
        fun r c => if r = it / idisp then unew c else s.resU r c
      else s.resU
    resP := if it % idisp = 0 then
        fun r c => if r = it / idisp then pnew c else s.resP r c
      else s.resP }

/-- The W7 time loop after `n` iterations. -/
def feRun (Minv K Mfd D : ℕ → ℕ → ℚ) (fvec srcf : ℕ → ℚ) (nx idisp : ℕ)
    (dt dx : ℚ) (n : ℕ) : FeSt :=
  (List.range n).foldl
    (fun s it => feStep Minv K Mfd D fvec srcf nx idisp dt dx it s)
    ⟨fun _ => 0, fun _ => 0, fun _ => 0, fun _ => 0,
      fun _ _ => 0, fun _ _ => 0⟩

/-- Loop state of the W5 Chebyshev time loop. -/
structure ChSt where
  u : ℕ → ℚ
  uold : ℕ → ℚ
  res : ℕ → ℕ → ℚ

/-- One iteration of the W5 Chebyshev elastic loop (grid of `nx+1`
collocation points): `du = mu * D @ u; du = D @ du / rho;
unew = 2*u - uold + du * dt**2; unew = unew + sg*src[it]*dt**2/rho;
uold, u = u, unew; u[0] = 0; u[nx] = 0`.  The differentiation matrix `D`
is a parameter of the loop (the notebook passes `get_cheby_matrix(nx)`).
`mu`, `rho`, `sg` are per-node arrays. -/
def chebyStep (D : ℕ → ℕ → ℚ) (mu rho sg : ℕ → ℚ) (srcf : ℕ → ℚ)
    (nx idisp : ℕ) (dt : ℚ) (it : ℕ) (s : ChSt) : ChSt :=
  let du1 := fun g => mu g * matVec (nx + 1) D s.u g
  let du := fun g => matVec (nx + 1) D du1 g / rho g
  let unew := fun g =>
    (2 * s.u g - s.uold g + du g * dt ^ 2) + sg g * srcf it * dt ^ 2 / rho g
  let u2 := fun g => if g = nx then 0 else if g = 0 then 0 else unew g
  { u := u2
    uold := s.u
    res := if it % idisp = 0 then
        fun r c => if r = it / idisp then u2 c else s.res r c
      else s.res }

/-- The W5 Chebyshev loop after `n` iterations. -/
def chebyRun (D : ℕ → ℕ → ℚ) (mu rho sg srcf : ℕ → ℚ) (nx idisp : ℕ)
    (dt : ℚ) (n : ℕ) : ChSt :=
  (List.range n).foldl
    (fun s it => chebyStep D mu rho sg srcf nx idisp dt it s)
    ⟨fun _ => 0, fun _ => 0, fun _ _ => 0⟩

/-- Loop state of the W5 Fourier acoustic 1D loop: Fourier field `sp`,
3-point finite-difference field `p`, 5-point field `ap`, with previous
values and snapshot arrays. -/
structure FoSt where
  sp : ℕ → ℚ
  spold : ℕ → ℚ
  p : ℕ → ℚ
  pold : ℕ → ℚ
  ap : ℕ → ℚ
  apold : ℕ → ℚ
  resP : ℕ → ℕ → ℚ
  resAp : ℕ → ℕ → ℚ
  resSp : ℕ → ℕ → ℚ

/-- One iteration of the W5 Fourier acoustic 1D loop.  `fd2` stands for
the notebook's `fourier_derivative_2nd` (an FFT round trip through NumPy,
treated as an opaque operator here).  After each of the three updates and
rotations the code pins boundary values: `sp[1] = 0; sp[nx-1] = 0`,
`p[0] = 0; p[nx-1] = 0`, `ap[0] = 0; ap[nx-1] = 0`. -/
def fourierStep (fd2 : (ℕ → ℚ) → ℕ → ℚ) (c dt dx : ℚ) (sg srcf : ℕ → ℚ)
    (nx idisp : ℕ) (it : ℕ) (s : FoSt) : FoSt :=
  let sd2p := fd2 s.sp
  let spnew := fun g =>
    (2 * s.sp g - s.spold g + c ^ 2 * dt ^ 2 * sd2p g)
      + sg g * srcf it * dt ^ 2
  let sp2 := fun g => if g = nx - 1 then 0 else if g = 1 then 0 else spnew g
  let d2p := fun i => if 1 ≤ i ∧ i + 1 < nx then
      (s.p (i + 1) - 2 * s.p i + s.p (i - 1)) / dx ^ 2 else 0
  let pnew := fun g =>
    (2 * s.p g - s.pold g + dt ^ 2 * c ^ 2 * d2p g)
      + sg g * srcf it * dt ^ 2
  let p2 := fun g => if g = nx - 1 then 0 else if g = 0 then 0 else pnew g
  let ad2p := fun i => if 2 ≤ i ∧ i + 2 < nx then
      (-(1 / 12) * s.ap (i + 2) + 4 / 3 * s.ap (i + 1) - 5 / 2 * s.ap i
        + 4 / 3 * s.ap (i - 1) - 1 / 12 * s.ap (i - 2)) / dx ^ 2 else 0
  let apnew := fun g =>
    (2 * s.ap g - s.apold g + dt ^ 2 * c ^ 2 * ad2p g)
      + sg g * srcf it * dt ^ 2
  let ap2 := fun g => if g = nx - 1 then 0 else if g = 0 then 0 else apnew g
  { sp := sp2
    spold := s.sp
    p := p2
    pold := s.p
    ap := ap2
    apold := s.ap
    resP := if it % idisp = 0 then
        fun r c => if r = it / idisp then p2 c else s.resP r c
      else s.resP
    resAp := if it % idisp = 0 then
        fun r c => if r = it / idisp then ap2 c else s.resAp r c
      else s.resAp
    resSp := if it % idisp = 0 then
        fun r c => if r = it / idisp then sp2 c else s.resSp r c
      else s.resSp }

/-- The W5 Fourier acoustic 1D loop after `n` iterations. -/
def fourierRun (fd2 : (ℕ → ℚ) → ℕ → ℚ) (c dt dx : ℚ) (sg srcf : ℕ → ℚ)
    (nx idisp : ℕ) (n : ℕ) : FoSt :=
  (List.range n).foldl
    (fun s it => fourierStep fd2 c dt dx sg srcf nx idisp it s)
    ⟨fun _ => 0, fun _ => 0, fun _ => 0, fun _ => 0, fun _ => 0, fun _ => 0,
      fun _ _ => 0, fun _ _ => 0, fun _ _ => 0⟩

end Loops

section Cheby
/-!
## `get_cheby_matrix` (W5 Chebyshev notebook)

The differentiation matrix is built over `ℝ` (the nodes are
`x[i] = cos(pi*i/nx)`).  Python evaluates the off-diagonal formula on the
whole grid, including the two endpoint diagonal positions where the
denominator `x[i] - x[j]` is zero (NumPy emits a transient division by
zero there), and then unconditionally overwrites `D[0,0]` and `D[nx,nx]`.
To make the transient division visible, every divided entry is modelled
as an `Option ℝ` that is `none` exactly when its denominator vanishes.
-/

open scoped Classical

/-- Chebyshev collocation nodes: `x[i] = cos(pi * i / nx)`. -/
noncomputable def chebyX (nx i : ℕ) : ℝ := Real.cos (Real.pi * i / nx)

/-- The endpoint weights `cx`: `cx[0] = 2, cx[nx] = 2, cx[1:nx] = 1`. -/
noncomputable def chebyC (nx i : ℕ) : ℝ := if i = 0 ∨ i = nx then 2 else 1

/-- One entry of the first loop of `get_cheby_matrix`: the interior
diagonal formula when `i == j and i != 0 and i != nx`, the off-diagonal
formula otherwise; `none` records a division by zero. -/
noncomputable def chebyEntry (nx i j : ℕ) : Option ℝ :=
  if i = j ∧ i ≠ 0 ∧ i ≠ nx then
    (if 2 * (1 - chebyX nx i * chebyX nx i) = 0 then none
     else some (-(chebyX nx i) / (2 * (1 - chebyX nx i * chebyX nx i))))
  else
    (if chebyC nx j * (chebyX nx i - chebyX nx j) = 0 then none
     else some (chebyC nx i * (-1 : ℝ) ^ (i + j)
        / (chebyC nx j * (chebyX nx i - chebyX nx j))))

/-- `get_cheby_matrix(nx)`: the looped entries with the two endpoint
diagonal entries overwritten by `D[0,0] = (2*nx**2+1)/6` and
`D[nx,nx] = -D[0,0]`. -/
noncomputable def get_cheby_matrix (nx : ℕ) : ℕ → ℕ → Option ℝ := fun i j =>
  if i = 0 ∧ j = 0 then some ((2 * (nx : ℝ) ^ 2 + 1) / 6)
  else if i = nx ∧ j = nx then some (-((2 * (nx : ℝ) ^ 2 + 1) / 6))
  else chebyEntry nx i j

end Cheby

/-! ## Fold and block-write machinery -/

/-- A fold preserves any invariant its step preserves. -/
theorem foldl_inv {α σ : Type} (P : σ → Prop) (f : σ → α → σ) (l : List α)
    (s : σ) (h0 : P s) (hstep : ∀ s a, P s → P (f s a)) :
    P (l.foldl f s) := by
  induction l generalizing s with
  | nil => exact h0
  | cons a l ih => exact ih (f s a) (hstep s a h0)

/-- Effect of one row of the assigning block write. -/
theorem blockW_row (Ke : ℕ → ℕ → ℚ) (base i : ℕ) (K : ℕ → ℕ → ℚ) :
    ∀ m a b : ℕ,
    ((List.range m).foldl
      (fun K j => fun a b =>
        if a = base + i ∧ b = base + j then Ke i j else K a b) K) a b
    = if a = base + i ∧ base ≤ b ∧ b < base + m then Ke i (b - base)
      else K a b := by
  intro m
  induction m with
  | zero =>
    intro a b
    simp only [List.range_zero, List.foldl_nil]
    rw [if_neg (by omega)]
  | succ m ih =>
    intro a b
    rw [@List.range_succ m, List.foldl_append]
    simp only [List.foldl_cons, List.foldl_nil]
    by_cases h1 : a = base + i ∧ b = base + m
    · rw [if_pos h1, if_pos ⟨h1.1, by omega, by omega⟩,
        (show b - base = m by omega)]
    · rw [if_neg h1, ih a b]
      by_cases h2 : a = base + i ∧ base ≤ b ∧ b < base + m
      · rw [if_pos h2, if_pos ⟨h2.1, h2.2.1, by omega⟩]
      · rw [if_neg h2, if_neg (fun hc => h2 ⟨hc.1, hc.2.1, by omega⟩)]

/-- Pointwise description of the assigning block write `blockW`. -/
theorem blockW_apply (Ke : ℕ → ℕ → ℚ) (N base : ℕ) (K : ℕ → ℕ → ℚ)
    (a b : ℕ) :
    blockW Ke N base K a b =
      if base ≤ a ∧ a ≤ base + N ∧ base ≤ b ∧ b ≤ base + N then
        Ke (a - base) (b - base)
      else K a b := by
  have aux : ∀ m a b : ℕ,
      ((List.range m).foldl
        (fun K i =>
          (List.range (N + 1)).foldl
            (fun K j => fun a b =>
              if a = base + i ∧ b = base + j then Ke i j else K a b) K) K)
        a b
      = if base ≤ a ∧ a < base + m ∧ base ≤ b ∧ b ≤ base + N then
          Ke (a - base) (b - base)
        else K a b := by
    intro m
    induction m with
    | zero =>
      intro a b
      simp only [List.range_zero, List.foldl_nil]
      rw [if_neg (by omega)]
    | succ m ih =>
      intro a b
      rw [@List.range_succ m, List.foldl_append]
      simp only [List.foldl_cons, List.foldl_nil]
      rw [blockW_row, ih a b]
      by_cases h1 : a = base + m ∧ base ≤ b ∧ b < base + (N + 1)
      · rw [if_pos h1,
          if_pos ⟨by omega, by omega, h1.2.1, by omega⟩,
          (show a - base = m by omega)]
      · rw [if_neg h1]
        by_cases h2 : base ≤ a ∧ a < base + m ∧ base ≤ b ∧ b ≤ base + N
        · rw [if_pos h2, if_pos ⟨h2.1, by omega, h2.2.2⟩]
        · rw [if_neg h2, if_neg (fun hc => by
            rcases Nat.lt_or_ge a (base + m) with h | h
            · exact h2 ⟨hc.1, h, hc.2.2⟩
            · exact h1 ⟨by omega, hc.2.2.1, by omega⟩)]
  rw [show blockW Ke N base K = (List.range (N + 1)).foldl
      (fun K i =>
        (List.range (N + 1)).foldl
          (fun K j => fun a b =>
            if a = base + i ∧ b = base + j then Ke i j else K a b) K) K
      from rfl,
    aux (N + 1) a b]
  by_cases h : base ≤ a ∧ a ≤ base + N ∧ base ≤ b ∧ b ≤ base + N
  · rw [if_pos ⟨h.1, by omega, h.2.2⟩, if_pos h]
  · rw [if_neg (fun hc => h ⟨hc.1, by omega, hc.2.2⟩), if_neg h]

/-- Effect of one row of the accumulating block write. -/
theorem blockAddW_row (B : ℕ → ℕ → ℚ) (base i : ℕ) (K : ℕ → ℕ → ℚ) :
    ∀ m a b : ℕ,
    ((List.range m).foldl
      (fun K j => fun a b =>
        if a = base + i ∧ b = base + j then K (base + i) (base + j) + B i j
        else K a b) K) a b
    = if a = base + i ∧ base ≤ b ∧ b < base + m then K a b + B i (b - base)
      else K a b := by
  intro m
  induction m with
  | zero =>
    intro a b
    simp only [List.range_zero, List.foldl_nil]
    rw [if_neg (by omega)]
  | succ m ih =>
    intro a b
    rw [@List.range_succ m, List.foldl_append]
    simp only [List.foldl_cons, List.foldl_nil]
    by_cases h1 : a = base + i ∧ b = base + m
    · rw [if_pos h1, ih (base + i) (base + m), if_neg (by omega),
        if_pos ⟨h1.1, by omega, by omega⟩, (show b - base = m by omega),
        h1.1, h1.2]
    · rw [if_neg h1, ih a b]
      by_cases h2 : a = base + i ∧ base ≤ b ∧ b < base + m
      · rw [if_pos h2, if_pos ⟨h2.1, h2.2.1, by omega⟩]
      · rw [if_neg h2, if_neg (fun hc => h2 ⟨hc.1, hc.2.1, by omega⟩)]

/-- Pointwise description of the accumulating block write `blockAddW`. -/
theorem blockAddW_apply (B : ℕ → ℕ → ℚ) (N base : ℕ) (K : ℕ → ℕ → ℚ)
    (a b : ℕ) :
    blockAddW B N base K a b =
      if base ≤ a ∧ a ≤ base + N ∧ base ≤ b ∧ b ≤ base + N then
        K a b + B (a - base) (b - base)
      else K a b := by
  have aux : ∀ m a b : ℕ,
      ((List.range m).foldl
        (fun K i =>
          (List.range (N + 1)).foldl
            (fun K j => fun a b =>
              if a = base + i ∧ b = base + j then
                K (base + i) (base + j) + B i j
              else K a b) K) K) a b
      = if base ≤ a ∧ a < base + m ∧ base ≤ b ∧ b ≤ base + N then
          K a b + B (a - base) (b - base)
        else K a b := by
    intro m
    induction m with
    | zero =>
      intro a b
      simp only [List.range_zero, List.foldl_nil]
      rw [if_neg (by omega)]
    | succ m ih =>
      intro a b
      rw [@List.range_succ m, List.foldl_append]
      simp only [List.foldl_cons, List.foldl_nil]
      rw [blockAddW_row, ih a b]
      by_cases h1 : a = base + m ∧ base ≤ b ∧ b < base + (N + 1)
      · rw [if_pos h1, if_neg (by omega),
          if_pos ⟨by omega, by omega, h1.2.1, by omega⟩,
          (show a - base = m by omega)]
      · rw [if_neg h1]
        by_cases h2 : base ≤ a ∧ a < base + m ∧ base ≤ b ∧ b ≤ base + N
        · rw [if_pos h2, if_pos ⟨h2.1, by omega, h2.2.2⟩]
        · rw [if_neg h2, if_neg (fun hc => by
            rcases Nat.lt_or_ge a (base + m) with h | h
            · exact h2 ⟨hc.1, h, hc.2.2⟩
            · exact h1 ⟨by omega, hc.2.2.1, by omega⟩)]
  rw [show blockAddW B N base K = (List.range (N + 1)).foldl
      (fun K i =>
        (List.range (N + 1)).foldl
          (fun K j => fun a b =>
            if a = base + i ∧ b = base + j then
              K (base + i) (base + j) + B i j
            else K a b) K) K
      from rfl,
    aux (N + 1) a b]
  by_cases h : base ≤ a ∧ a ≤ base + N ∧ base ≤ b ∧ b ≤ base + N
  · rw [if_pos ⟨h.1, by omega, h.2.2⟩, if_pos h]
  · rw [if_neg (fun hc => h ⟨hc.1, by omega, hc.2.2⟩), if_neg h]

/-! ## Global assembly characterizations -/

open scoped Classical

/-- The accumulating assembly is the sum of the placed element blocks. -/
theorem accAssemble_apply (B : ℕ → ℕ → ℕ → ℚ) (N : ℕ) :
    ∀ ne a b : ℕ,
    accAssemble B N ne a b =
      ∑ e1 in Finset.range ne,
        (if covP N a b e1 then B e1 (a - e1 * N) (b - e1 * N) else 0) := by
  intro ne
  induction ne with
  | zero =>
    intro a b
    simp [accAssemble]
  | succ ne ih =>
    intro a b
    unfold accAssemble
    rw [@List.range_succ ne, List.foldl_append]
    simp only [List.foldl_cons, List.foldl_nil]
    rw [blockAddW_apply]
    have hpre : (List.range ne).foldl
        (fun K e1 => blockAddW (B e1) N (e1 * N) K) (fun _ _ => 0) a b
        = accAssemble B N ne a b := rfl
    rw [hpre, ih a b, Finset.sum_range_succ]
    by_cases h : covP N a b ne
    · have h' : ne * N ≤ a ∧ a ≤ ne * N + N ∧ ne * N ≤ b ∧ b ≤ ne * N + N := h
      rw [if_pos h', if_pos h]
    · have h' : ¬(ne * N ≤ a ∧ a ≤ ne * N + N ∧ ne * N ≤ b ∧ b ≤ ne * N + N) :=
        fun hc => h hc
      rw [if_neg h', if_neg h, add_zero]

/-- The boundary patch of the homogeneous assembly: shared diagonal
entries get `Ke[0,0] + Ke[N,N]`, everything else keeps its assigned
value. -/
theorem seHomoK_apply (Ke : ℕ → ℕ → ℚ) (N ne a b : ℕ) :
    seHomoK Ke N ne a b =
      if a = b ∧ ∃ t, t < ne ∧ 1 ≤ t ∧ a = t * N then Ke 0 0 + Ke N N
      else seHomoKAssign Ke N ne a b := by
  have aux : ∀ m a b : ℕ,
      ((List.range m).foldl
        (fun K k2 => fun a b =>
          if a = (k2 + 1) * N ∧ b = (k2 + 1) * N then Ke 0 0 + Ke N N
          else K a b) (seHomoKAssign Ke N ne)) a b
      = if a = b ∧ ∃ k2, k2 < m ∧ a = (k2 + 1) * N then Ke 0 0 + Ke N N
        else seHomoKAssign Ke N ne a b := by
    intro m
    induction m with
    | zero =>
      intro a b
      simp only [List.range_zero, List.foldl_nil]
      rw [if_neg (by rintro ⟨-, k2, hk2, -⟩; omega)]
    | succ m ih =>
      intro a b
      rw [@List.range_succ m, List.foldl_append]
      simp only [List.foldl_cons, List.foldl_nil]
      rw [ih a b]
      by_cases h1 : a = (m + 1) * N ∧ b = (m + 1) * N
      · rw [if_pos h1, if_pos ⟨by rw [h1.1, h1.2], ⟨m, by omega, h1.1⟩⟩]
      · rw [if_neg h1]
        by_cases h2 : a = b ∧ ∃ k2, k2 < m ∧ a = (k2 + 1) * N
        · obtain ⟨hab, k2, hk2, hak⟩ := h2
          rw [if_pos ⟨hab, k2, hk2, hak⟩,
            if_pos ⟨hab, k2, by omega, hak⟩]
        · rw [if_neg h2, if_neg (by
            rintro ⟨hab, k2, hk2, hak⟩
            rcases Nat.lt_or_ge k2 m with h | h
            · exact h2 ⟨hab, k2, h, hak⟩
            · have : k2 = m := by omega
              subst this
              exact h1 ⟨hak, by rw [← hab, hak]⟩)]
  have : seHomoK Ke N ne a b = ((List.range (ne - 1)).foldl
      (fun K k2 => fun a b =>
        if a = (k2 + 1) * N ∧ b = (k2 + 1) * N then Ke 0 0 + Ke N N
        else K a b) (seHomoKAssign Ke N ne)) a b := rfl
  rw [this, aux (ne - 1) a b]
  by_cases h : a = b ∧ ∃ k2, k2 < ne - 1 ∧ a = (k2 + 1) * N
  · obtain ⟨hab, k2, hk2, hak⟩ := h
    rw [if_pos ⟨hab, k2, hk2, hak⟩,
      if_pos ⟨hab, k2 + 1, by omega, by omega, hak⟩]
  · rw [if_neg h, if_neg (by
      rintro ⟨hab, t, htne, ht1, hat⟩
      exact h ⟨hab, t - 1, by omega, by rw [hat]; congr 1; omega⟩)]

/-- Pointwise description of the assigning stage of the homogeneous
stiffness assembly: a cell covered by at least one element block holds
the entry of the last (greatest) covering block; uncovered cells are
zero. -/
theorem seHomoKAssign_apply (Ke : ℕ → ℕ → ℚ) (N : ℕ) :
    ∀ ne, 1 ≤ ne → ∀ a b : ℕ,
    seHomoKAssign Ke N ne a b =
      if ∃ e1, e1 < ne ∧ covP N a b e1 then
        Ke (a - Nat.findGreatest (covP N a b) (ne - 1) * N)
          (b - Nat.findGreatest (covP N a b) (ne - 1) * N)
      else 0 := by
  have aux : ∀ ne, 1 ≤ ne → ∀ a b : ℕ,
      ((List.range ne).foldl
        (fun K k1 => blockW Ke N (k1 * N) K) (fun _ _ => 0)) a b
      = if ∃ e1, e1 < ne ∧ covP N a b e1 then
          Ke (a - Nat.findGreatest (covP N a b) (ne - 1) * N)
            (b - Nat.findGreatest (covP N a b) (ne - 1) * N)
        else 0 := by
    intro ne hne
    induction ne, hne using Nat.le_induction with
    | base =>
      intro a b
      rw [@List.range_succ 0]
      simp only [List.range_zero, List.nil_append, List.foldl_cons,
        List.foldl_nil]
      rw [blockW_apply]
      by_cases hc : covP N a b 0
      · have hc' : 0 * N ≤ a ∧ a ≤ 0 * N + N ∧ 0 * N ≤ b ∧ b ≤ 0 * N + N := hc
        rw [if_pos hc', if_pos ⟨0, by omega, hc⟩]
        have hz : Nat.findGreatest (covP N a b) (1 - 1) = 0 :=
          Nat.findGreatest_zero
        rw [hz]
      · have hc' : ¬(0 * N ≤ a ∧ a ≤ 0 * N + N ∧ 0 * N ≤ b ∧ b ≤ 0 * N + N) :=
          fun hh => hc hh
        rw [if_neg hc', if_neg (by
          rintro ⟨e1, he1, hp⟩
          obtain rfl : e1 = 0 := by omega
          exact hc hp)]
    | succ m hm ih =>
      intro a b
      rw [@List.range_succ m, List.foldl_append]
      simp only [List.foldl_cons, List.foldl_nil]
      rw [blockW_apply, ih a b]
      obtain ⟨m', rfl⟩ : ∃ m', m = m' + 1 := ⟨m - 1, by omega⟩
      by_cases h1 : covP N a b (m' + 1)
      · have h1' : (m' + 1) * N ≤ a ∧ a ≤ (m' + 1) * N + N ∧
            (m' + 1) * N ≤ b ∧ b ≤ (m' + 1) * N + N := h1
        rw [if_pos h1', if_pos ⟨m' + 1, by omega, h1⟩]
        have hfg : Nat.findGreatest (covP N a b) (m' + 1 + 1 - 1) = m' + 1 := by
          have he : m' + 1 + 1 - 1 = m' + 1 := rfl
          rw [he]
          have h2 := Nat.le_findGreatest (le_refl (m' + 1)) h1
          have h3 := @Nat.findGreatest_le (covP N a b) _ (m' + 1)
          omega
        rw [hfg]
      · have h1' : ¬((m' + 1) * N ≤ a ∧ a ≤ (m' + 1) * N + N ∧
            (m' + 1) * N ≤ b ∧ b ≤ (m' + 1) * N + N) := fun hc => h1 hc
        rw [if_neg h1']
        have hfg : Nat.findGreatest (covP N a b) (m' + 1 + 1 - 1)
            = Nat.findGreatest (covP N a b) (m' + 1 - 1) := by
          simp only [Nat.add_sub_cancel]
          rw [Nat.findGreatest_succ, if_neg h1]
        by_cases h2 : ∃ e1, e1 < m' + 1 ∧ covP N a b e1
        · obtain ⟨e1, he1, hp⟩ := h2
          rw [if_pos ⟨e1, he1, hp⟩, if_pos ⟨e1, by omega, hp⟩, hfg]
        · rw [if_neg h2, if_neg (by
            rintro ⟨e1, he1, hp⟩
            rcases Nat.lt_or_ge e1 (m' + 1) with h | h
            · exact h2 ⟨e1, h, hp⟩
            · have : e1 = m' + 1 := by omega
              subst this
              exact h1 hp)]
  intro ne hne a b
  have : seHomoKAssign Ke N ne a b = ((List.range ne).foldl
      (fun K k1 => blockW Ke N (k1 * N) K) (fun _ _ => 0)) a b := rfl
  rw [this, aux ne hne a b]

/-- Two distinct blocks cover the same cell only if they are adjacent and
the cell is the shared diagonal corner. -/
theorem covP_two (N a b e1 e2 : ℕ) (hN : 1 ≤ N) (h12 : e1 < e2)
    (h1 : covP N a b e1) (h2 : covP N a b e2) :
    a = e2 * N ∧ b = e2 * N ∧ e2 = e1 + 1 := by
  obtain ⟨ha1, ha2, hb1, hb2⟩ := h1
  obtain ⟨ha1', ha2', hb1', hb2'⟩ := h2
  have key : e2 * N ≤ e1 * N + N := le_trans ha1' ha2
  have hsucc : (e1 + 1) * N = e1 * N + N := by rw [Nat.succ_mul]
  have he : e2 ≤ e1 + 1 := by
    by_contra hcon
    have : e1 + 2 ≤ e2 := by omega
    have : (e1 + 2) * N ≤ e2 * N := Nat.mul_le_mul_right N this
    have h2N : (e1 + 2) * N = e1 * N + N + N := by ring
    omega
  have he2 : e2 = e1 + 1 := by omega
  subst he2
  exact ⟨by omega, by omega, rfl⟩

/-- The homogeneous assign-then-patch assembly agrees with the
accumulating assembly run on the (element-independent) elemental block:
overwriting block interiors and patching the shared diagonal gives the
same matrix as summing overlapping blocks. -/
theorem seHomoK_eq_acc (Ke : ℕ → ℕ → ℚ) (N ne : ℕ) (hN : 1 ≤ N)
    (hne : 1 ≤ ne) (a b : ℕ) :
    seHomoK Ke N ne a b = accAssemble (fun _ => Ke) N ne a b := by
  rw [seHomoK_apply, accAssemble_apply]
  by_cases hpatch : a = b ∧ ∃ t, t < ne ∧ 1 ≤ t ∧ a = t * N
  · obtain ⟨hab, t, htne, ht1, hat⟩ := hpatch
    rw [if_pos ⟨hab, t, htne, ht1, hat⟩]
    subst hab
    subst hat
    have hcov : ∀ e1, covP N (t * N) (t * N) e1 ↔ e1 = t - 1 ∨ e1 = t := by
      intro e1
      constructor
      · rintro ⟨h1, h2, -, -⟩
        have he1t : e1 ≤ t := Nat.le_of_mul_le_mul_right h1 (by omega)
        have hsucc : (e1 + 1) * N = e1 * N + N := by rw [Nat.succ_mul]
        have hte1 : t * N ≤ (e1 + 1) * N := by omega
        have : t ≤ e1 + 1 := Nat.le_of_mul_le_mul_right hte1 (by omega)
        omega
      · have hsucc : (t - 1 + 1) * N = (t - 1) * N + N := by rw [Nat.succ_mul]
        have htt : (t - 1) + 1 = t := by omega
        have h1 : (t - 1) * N ≤ t * N := Nat.mul_le_mul_right N (by omega)
        have h2 : t * N ≤ (t - 1) * N + N := le_of_eq (by rw [← hsucc, htt])
        rintro (rfl | rfl)
        · exact ⟨h1, h2, h1, h2⟩
        · exact ⟨le_refl _, by omega, le_refl _, by omega⟩
    have hsub : ({t - 1, t} : Finset ℕ) ⊆ Finset.range ne := by
      intro x hx
      rcases Finset.mem_insert.mp hx with rfl | hx
      · exact Finset.mem_range.mpr (by omega)
      · rw [Finset.mem_singleton.mp hx]
        exact Finset.mem_range.mpr htne
    rw [← Finset.sum_subset hsub (by
      intro x _ hxnot
      rw [if_neg (fun hp => hxnot (by
        rcases (hcov x).mp hp with rfl | rfl
        · exact Finset.mem_insert_self _ _
        · exact Finset.mem_insert_of_mem (Finset.mem_singleton_self _)))])]
    rw [Finset.sum_insert (by
      rw [Finset.mem_singleton]
      omega)]
    rw [Finset.sum_singleton]
    rw [if_pos ((hcov (t - 1)).mpr (Or.inl rfl)),
      if_pos ((hcov t).mpr (Or.inr rfl))]
    have hsucc : (t - 1 + 1) * N = (t - 1) * N + N := by rw [Nat.succ_mul]
    have htt : (t - 1) + 1 = t := by omega
    have ht2 : t * N = (t - 1) * N + N := by
      conv_lhs => rw [← htt]
      rw [hsucc]
    have hdiff : t * N - (t - 1) * N = N := by omega
    rw [hdiff, Nat.sub_self]
    exact (add_comm _ _)
  · rw [if_neg hpatch, seHomoKAssign_apply Ke N ne hne a b]
    by_cases hex : ∃ e1, e1 < ne ∧ covP N a b e1
    · rw [if_pos hex]
      obtain ⟨e1w, he1w, hpw⟩ := hex
      have hwle : e1w ≤ ne - 1 := by omega
      have hFGcov : covP N a b (Nat.findGreatest (covP N a b) (ne - 1)) :=
        Nat.findGreatest_spec hwle hpw
      have hFGle : Nat.findGreatest (covP N a b) (ne - 1) ≤ ne - 1 :=
        @Nat.findGreatest_le (covP N a b) _ (ne - 1)
      rw [Finset.sum_eq_single_of_mem (Nat.findGreatest (covP N a b) (ne - 1))
        (Finset.mem_range.mpr (by omega))
        (by
          intro e1 he1 hne'
          by_cases hp : covP N a b e1
          · exfalso
            have hle : e1 ≤ Nat.findGreatest (covP N a b) (ne - 1) :=
              Nat.le_findGreatest (by
                have := Finset.mem_range.mp he1
                omega) hp
            have hlt : e1 < Nat.findGreatest (covP N a b) (ne - 1) := by omega
            obtain ⟨haa, hbb, hadj⟩ := covP_two N a b e1
              (Nat.findGreatest (covP N a b) (ne - 1)) hN hlt hp hFGcov
            exact hpatch ⟨haa.trans hbb.symm,
              Nat.findGreatest (covP N a b) (ne - 1), by omega, by omega, haa⟩
          · exact if_neg hp)]
      rw [if_pos hFGcov]
    · rw [if_neg hex, Finset.sum_eq_zero (by
        intro e1 he1
        exact if_neg (fun hp => hex ⟨e1, Finset.mem_range.mp he1, hp⟩))]

/-! ## Row sums, shared nodes, symmetry -/

/-- Summing a windowed function over a large enough range collects
exactly the window. -/
theorem window_sum (F : ℕ → ℚ) (aL W n : ℕ) (h : aL + W < n) :
    ∑ x in Finset.range n, (if aL ≤ x ∧ x ≤ aL + W then F (x - aL) else 0)
    = ∑ j in Finset.range (W + 1), F j := by
  have hsub : Finset.Icc aL (aL + W) ⊆ Finset.range n := by
    intro x hx
    have := Finset.mem_Icc.mp hx
    exact Finset.mem_range.mpr (by omega)
  rw [← Finset.sum_subset hsub (by
    intro x _ hxnot
    rw [if_neg (fun hc => hxnot (Finset.mem_Icc.mpr ⟨hc.1, hc.2⟩))])]
  rw [Finset.sum_congr rfl (fun x hx => if_pos (Finset.mem_Icc.mp hx))]
  rw [← Nat.Ico_succ_right, Finset.sum_Ico_eq_sum_range]
  have he : aL + W + 1 - aL = W + 1 := by omega
  rw [he]
  exact Finset.sum_congr rfl (fun j _ => by rw [Nat.add_sub_cancel_left])

/-- Row sums of the homogeneous elemental stiffness block vanish when
the columns of the basis-derivative table sum to zero (the derivatives of
a partition of unity sum to zero at every collocation point). -/
theorem KeHomoM_row_sum (mu Ji : ℚ) (w : ℕ → ℚ) (l1d : ℕ → ℕ → ℚ) (N : ℕ)
    (hl : ∀ k ≤ N, ∑ i in Finset.range (N + 1), l1d i k = 0) (i : ℕ) :
    ∑ j in Finset.range (N + 1), KeHomoM mu Ji w l1d N i j = 0 := by
  unfold KeHomoM
  rw [Finset.sum_comm]
  refine Finset.sum_eq_zero (fun k hk => ?_)
  rw [← Finset.mul_sum, hl k (by
    have := Finset.mem_range.mp hk
    omega), mul_zero]

/-- Row sums of the heterogeneous elemental stiffness block vanish under
the same hypothesis. -/
theorem KeHetM_row_sum (mu w : ℕ → ℚ) (Ji J : ℚ) (l1d : ℕ → ℕ → ℚ)
    (N e : ℕ)
    (hl : ∀ k ≤ N, ∑ i in Finset.range (N + 1), l1d i k = 0) (i : ℕ) :
    ∑ j in Finset.range (N + 1), KeHetM mu w Ji J l1d N e i j = 0 := by
  unfold KeHetM
  rw [Finset.sum_comm]
  refine Finset.sum_eq_zero (fun k hk => ?_)
  rw [← Finset.mul_sum, hl k (by
    have := Finset.mem_range.mp hk
    omega), mul_zero]

/-- Every row of an accumulating assembly sums to zero over the full
degree-of-freedom range `0..ne*N` provided every elemental block has
vanishing row sums. -/
theorem accAssemble_row_sum (B : ℕ → ℕ → ℕ → ℚ) (N ne : ℕ)
    (hB : ∀ e1 i, ∑ j in Finset.range (N + 1), B e1 i j = 0) (a : ℕ) :
    ∑ b in Finset.range (ne * N + 1), accAssemble B N ne a b = 0 := by
  rw [Finset.sum_congr rfl (fun b _ => accAssemble_apply B N ne a b)]
  rw [Finset.sum_comm]
  refine Finset.sum_eq_zero (fun e1 he1 => ?_)
  have he1' : e1 < ne := Finset.mem_range.mp he1
  by_cases hrow : e1 * N ≤ a ∧ a ≤ e1 * N + N
  · have hcongr : ∀ b ∈ Finset.range (ne * N + 1),
        (if covP N a b e1 then B e1 (a - e1 * N) (b - e1 * N) else 0)
        = (if e1 * N ≤ b ∧ b ≤ e1 * N + N then
            B e1 (a - e1 * N) (b - e1 * N) else 0) := by
      intro b _
      by_cases hb : e1 * N ≤ b ∧ b ≤ e1 * N + N
      · rw [if_pos ⟨hrow.1, hrow.2, hb.1, hb.2⟩, if_pos hb]
      · rw [if_neg (fun hc => hb ⟨hc.2.2.1, hc.2.2.2⟩), if_neg hb]
    rw [Finset.sum_congr rfl hcongr]
    have hwin : e1 * N + N < ne * N + 1 := by
      have : (e1 + 1) * N ≤ ne * N := Nat.mul_le_mul_right N (by omega)
      have hsucc : (e1 + 1) * N = e1 * N + N := by rw [Nat.succ_mul]
      omega
    rw [window_sum (fun j => B e1 (a - e1 * N) j) (e1 * N) N
      (ne * N + 1) hwin]
    exact hB e1 (a - e1 * N)
  · refine Finset.sum_eq_zero (fun b _ => ?_)
    exact if_neg (fun hc => hrow ⟨hc.1, hc.2.1⟩)

/-- Which blocks cover the shared diagonal cell `(t*N, t*N)`:
exactly the two incident elements `t-1` and `t`. -/
theorem covP_diag_iff (N t e1 : ℕ) (hN : 1 ≤ N) (ht1 : 1 ≤ t) :
    covP N (t * N) (t * N) e1 ↔ e1 = t - 1 ∨ e1 = t := by
  constructor
  · rintro ⟨h1, h2, -, -⟩
    have he1t : e1 ≤ t := Nat.le_of_mul_le_mul_right h1 (by omega)
    have hsucc : (e1 + 1) * N = e1 * N + N := by rw [Nat.succ_mul]
    have hte1 : t * N ≤ (e1 + 1) * N := by omega
    have : t ≤ e1 + 1 := Nat.le_of_mul_le_mul_right hte1 (by omega)
    omega
  · have hsucc : (t - 1 + 1) * N = (t - 1) * N + N := by rw [Nat.succ_mul]
    have htt : (t - 1) + 1 = t := by omega
    have h1 : (t - 1) * N ≤ t * N := Nat.mul_le_mul_right N (by omega)
    have h2 : t * N ≤ (t - 1) * N + N := le_of_eq (by rw [← hsucc, htt])
    rintro (rfl | rfl)
    · exact ⟨h1, h2, h1, h2⟩
    · exact ⟨le_refl _, by omega, le_refl _, by omega⟩

/-- In an accumulating assembly the shared diagonal entry of two adjacent
elements is the sum of the two incident elemental corner entries. -/
theorem accAssemble_shared_diag (B : ℕ → ℕ → ℕ → ℚ) (N ne t : ℕ)
    (hN : 1 ≤ N) (ht1 : 1 ≤ t) (htne : t < ne) :
    accAssemble B N ne (t * N) (t * N) = B (t - 1) N N + B t 0 0 := by
  rw [accAssemble_apply]
  have hsub : ({t - 1, t} : Finset ℕ) ⊆ Finset.range ne := by
    intro x hx
    rcases Finset.mem_insert.mp hx with rfl | hx
    · exact Finset.mem_range.mpr (by omega)
    · rw [Finset.mem_singleton.mp hx]
      exact Finset.mem_range.mpr htne
  rw [← Finset.sum_subset hsub (by
    intro x _ hxnot
    rw [if_neg (fun hp => hxnot (by
      rcases (covP_diag_iff N t x hN ht1).mp hp with rfl | rfl
      · exact Finset.mem_insert_self _ _
      · exact Finset.mem_insert_of_mem (Finset.mem_singleton_self _)))])]
  rw [Finset.sum_insert (by
    rw [Finset.mem_singleton]
    omega)]
  rw [Finset.sum_singleton,
    if_pos ((covP_diag_iff N t (t - 1) hN ht1).mpr (Or.inl rfl)),
    if_pos ((covP_diag_iff N t t hN ht1).mpr (Or.inr rfl))]
  have hsucc : (t - 1 + 1) * N = (t - 1) * N + N := by rw [Nat.succ_mul]
  have htt : (t - 1) + 1 = t := by omega
  have ht2 : t * N = (t - 1) * N + N := by
    conv_lhs => rw [← htt]
    rw [hsucc]
  have hdiff : t * N - (t - 1) * N = N := by omega
  rw [hdiff, Nat.sub_self]

/-- Exactly two element blocks contribute to an interior shared diagonal
cell. -/
theorem covP_diag_card (N ne t : ℕ) (hN : 1 ≤ N) (ht1 : 1 ≤ t)
    (htne : t < ne) :
    ((Finset.range ne).filter (covP N (t * N) (t * N))).card = 2 := by
  have hfe : (Finset.range ne).filter (covP N (t * N) (t * N))
      = {t - 1, t} := by
    ext x
    rw [Finset.mem_filter, Finset.mem_insert, Finset.mem_singleton,
      Finset.mem_range]
    constructor
    · rintro ⟨-, hp⟩
      exact (covP_diag_iff N t x hN ht1).mp hp
    · intro hx
      refine ⟨by omega, (covP_diag_iff N t x hN ht1).mpr hx⟩
  rw [hfe, Finset.card_insert_of_not_mem (by
    rw [Finset.mem_singleton]
    omega), Finset.card_singleton]

/-- An accumulating assembly of symmetric blocks is symmetric. -/
theorem accAssemble_symm (B : ℕ → ℕ → ℕ → ℚ) (N ne : ℕ)
    (hB : ∀ e1 i j, B e1 i j = B e1 j i) (a b : ℕ) :
    accAssemble B N ne a b = accAssemble B N ne b a := by
  rw [accAssemble_apply, accAssemble_apply]
  refine Finset.sum_congr rfl (fun e1 _ => ?_)
  by_cases hc : covP N a b e1
  · rw [if_pos hc, if_pos ⟨hc.2.2.1, hc.2.2.2, hc.1, hc.2.1⟩, hB]
  · rw [if_neg hc, if_neg (fun hc2 => hc ⟨hc2.2.2.1, hc2.2.2.2,
      hc2.1, hc2.2.1⟩)]

/-- The mass matrix of the W7 notebook is symmetric for arbitrary
material and element-size arrays. -/
theorem W7M_symm (ro h : ℕ → ℚ) (nx a b : ℕ) :
    W7M ro h nx a b = W7M ro h nx b a := by
  unfold W7M
  by_cases c1 : a = 0 ∧ b = 0
  · rw [if_pos c1, if_pos (show b = 0 ∧ a = 0 from ⟨c1.2, c1.1⟩)]
  · rw [if_neg c1, if_neg (show ¬(b = 0 ∧ a = 0) from
      fun hc => c1 ⟨hc.2, hc.1⟩)]
    by_cases c2 : a = nx - 1 ∧ b = nx - 1
    · rw [if_pos c2, if_pos (show b = nx - 1 ∧ a = nx - 1 from
        ⟨c2.2, c2.1⟩)]
    · rw [if_neg c2, if_neg (show ¬(b = nx - 1 ∧ a = nx - 1) from
        fun hc => c2 ⟨hc.2, hc.1⟩)]
      by_cases c3 : 1 ≤ a ∧ a ≤ nx - 2 ∧ 1 ≤ b ∧ b ≤ nx - 2
      · rw [if_pos c3, if_pos (show 1 ≤ b ∧ b ≤ nx - 2 ∧ 1 ≤ a ∧ a ≤ nx - 2
          from ⟨c3.2.2.1, c3.2.2.2, c3.1, c3.2.1⟩)]
        by_cases d1 : b = a
        · rw [if_pos d1, if_pos (show a = b from d1.symm), d1]
        · rw [if_neg d1, if_neg (show ¬(a = b) from fun hc => d1 hc.symm)]
          by_cases d2 : b = a + 1
          · rw [if_pos d2, if_neg (show ¬(a = b + 1) by omega),
              if_pos (show a = b - 1 by omega),
              (show b - 1 = a by omega)]
          · rw [if_neg d2]
            by_cases d3 : b = a - 1
            · rw [if_pos d3, if_pos (show a = b + 1 by omega),
                (show a - 1 = b by omega)]
            · rw [if_neg d3, if_neg (show ¬(a = b + 1) by omega),
                if_neg (show ¬(a = b - 1) by omega)]
      · rw [if_neg c3, if_neg (show ¬(1 ≤ b ∧ b ≤ nx - 2 ∧ 1 ≤ a ∧
          a ≤ nx - 2) from fun hc => c3 ⟨hc.2.2.1, hc.2.2.2, hc.1, hc.2.1⟩)]

/-- The stiffness matrix of the W7 notebook is symmetric for arbitrary
material and element-size arrays. -/
theorem W7K_symm (mu h : ℕ → ℚ) (nx a b : ℕ) :
    W7K mu h nx a b = W7K mu h nx b a := by
  unfold W7K
  by_cases c1 : a = 0 ∧ b = 0
  · rw [if_pos c1, if_pos (show b = 0 ∧ a = 0 from ⟨c1.2, c1.1⟩)]
  · rw [if_neg c1, if_neg (show ¬(b = 0 ∧ a = 0) from
      fun hc => c1 ⟨hc.2, hc.1⟩)]
    by_cases c2 : a = nx - 1 ∧ b = nx - 1
    · rw [if_pos c2, if_pos (show b = nx - 1 ∧ a = nx - 1 from
        ⟨c2.2, c2.1⟩)]
    · rw [if_neg c2, if_neg (show ¬(b = nx - 1 ∧ a = nx - 1) from
        fun hc => c2 ⟨hc.2, hc.1⟩)]
      by_cases c3 : 1 ≤ a ∧ a ≤ nx - 2 ∧ 1 ≤ b ∧ b ≤ nx - 2
      · rw [if_pos c3, if_pos (show 1 ≤ b ∧ b ≤ nx - 2 ∧ 1 ≤ a ∧ a ≤ nx - 2
          from ⟨c3.2.2.1, c3.2.2.2, c3.1, c3.2.1⟩)]
        by_cases e1 : a = b
        · rw [if_pos e1, if_pos (show b = a from e1.symm), e1]
        · rw [if_neg e1, if_neg (show ¬(b = a) from fun hc => e1 hc.symm)]
          by_cases e2 : a = b + 1
          · rw [if_pos e2, if_neg (show ¬(b = a + 1) by omega),
              if_pos (show b + 1 = a from e2.symm),
              (show a - 1 = b by omega)]
          · rw [if_neg e2]
            by_cases e3 : a + 1 = b
            · rw [if_pos e3, if_pos (show b = a + 1 from e3.symm),
                (show b - 1 = a by omega)]
            · rw [if_neg e3, if_neg (show ¬(b = a + 1) by omega),
                if_neg (show ¬(b + 1 = a) by omega)]
      · rw [if_neg c3, if_neg (show ¬(1 ≤ b ∧ b ≤ nx - 2 ∧ 1 ≤ a ∧
          a ≤ nx - 2) from fun hc => c3 ⟨hc.2.2.1, hc.2.2.2, hc.1, hc.2.1⟩)]


/-! ## Mass assembly characterizations -/

/-- Effect of one element (after the first) of the homogeneous global
mass loop: the counter advances by `N` and the elemental vector is added
on the window `[k, k+N]`, sharing position `k` with the previous
element. -/
theorem seHomoMassElem_spec (Me : ℕ → ℚ) (N i : ℕ) (hi : 2 ≤ i)
    (st : SeMassSt) :
    (seHomoMassElem Me N i st).k = st.k + N ∧
    ∀ g : ℤ, (seHomoMassElem Me N i st).M g
      = st.M g + (if st.k ≤ g ∧ g ≤ st.k + N then Me (g - st.k).toNat
          else 0) := by
  have aux : ∀ m : ℕ, 1 ≤ m →
      ((List.range m).foldl
        (fun st j =>
          let k1 := st.k + 1
          let k2 := if 1 < i ∧ j = 0 then k1 - 1 else k1
          (⟨k2, fun g => if g = k2 then st.M g + Me j else st.M g⟩ :
            SeMassSt)) st).k = st.k + ((m : ℤ) - 1) ∧
      ∀ g : ℤ,
      ((List.range m).foldl
        (fun st j =>
          let k1 := st.k + 1
          let k2 := if 1 < i ∧ j = 0 then k1 - 1 else k1
          (⟨k2, fun g => if g = k2 then st.M g + Me j else st.M g⟩ :
            SeMassSt)) st).M g
        = st.M g + (if st.k ≤ g ∧ g ≤ st.k + ((m : ℤ) - 1) then
            Me (g - st.k).toNat else 0) := by
    intro m hm
    induction m, hm using Nat.le_induction with
    | base =>
      rw [@List.range_succ 0]
      simp only [List.range_zero, List.nil_append, List.foldl_cons,
        List.foldl_nil]
      rw [if_pos (show 1 < i ∧ True from ⟨by omega, trivial⟩)]
      constructor
      · show st.k + 1 - 1 = st.k + (((1 : ℕ) : ℤ) - 1)
        push_cast
        ring
      · intro g
        show (if g = st.k + 1 - 1 then st.M g + Me 0 else st.M g)
          = st.M g + (if st.k ≤ g ∧ g ≤ st.k + (((1 : ℕ) : ℤ) - 1) then
              Me (g - st.k).toNat else 0)
        by_cases hg : g = st.k + 1 - 1
        · rw [if_pos hg, if_pos ⟨by omega, by omega⟩,
            (show g - st.k = 0 by omega)]
          rw [Int.toNat_zero]
        · rw [if_neg hg, if_neg (by
            rintro ⟨h1, h2⟩
            exact hg (by omega)), add_zero]
    | succ m hm ih =>
      obtain ⟨ihk, ihM⟩ := ih
      have hcond : ¬(1 < i ∧ m = 0) := by omega
      rw [@List.range_succ m, List.foldl_append]
      simp only [List.foldl_cons, List.foldl_nil, if_neg hcond]
      constructor
      · simp only [ihk]
        push_cast
        ring
      · intro g
        simp only [ihk, ihM g]
        by_cases hg : g = st.k + ((m : ℤ) - 1) + 1
        · rw [if_pos hg, if_neg (by
            rintro ⟨h1, h2⟩
            omega), add_zero,
            if_pos (show st.k ≤ g ∧ g ≤ st.k + (((m + 1 : ℕ) : ℤ) - 1)
              from ⟨by omega, by omega⟩),
            (show g - st.k = (m : ℤ) by omega),
            (show ((m : ℤ)).toNat = m by omega)]
        · rw [if_neg hg]
          by_cases h2 : st.k ≤ g ∧ g ≤ st.k + ((m : ℤ) - 1)
          · rw [if_pos h2,
              if_pos (show st.k ≤ g ∧ g ≤ st.k + (((m + 1 : ℕ) : ℤ) - 1)
                from ⟨h2.1, by omega⟩)]
          · rw [if_neg h2, if_neg (by
              rintro ⟨ha, hb⟩
              exact h2 ⟨ha, by omega⟩)]
  have h := aux (N + 1) (by omega)
  unfold seHomoMassElem
  constructor
  · rw [h.1]
    push_cast
    ring
  · intro g
    rw [h.2 g]
    by_cases hc : st.k ≤ g ∧ g ≤ st.k + N
    · rw [if_pos (show st.k ≤ g ∧ g ≤ st.k + (((N + 1 : ℕ) : ℤ) - 1)
        from ⟨hc.1, by omega⟩), if_pos hc]
    · rw [if_neg (by
        rintro ⟨ha, hb⟩
        exact hc ⟨ha, by omega⟩), if_neg hc]

/-- Effect of the first element of the homogeneous global mass loop:
starting from `k = -1` semantics, the counter advances by `N+1` and the
elemental vector is added on the window `[k+1, k+1+N]`. -/
theorem seHomoMassElem_one_spec (Me : ℕ → ℚ) (N : ℕ) (st : SeMassSt) :
    (seHomoMassElem Me N 1 st).k = st.k + N + 1 ∧
    ∀ g : ℤ, (seHomoMassElem Me N 1 st).M g
      = st.M g + (if st.k + 1 ≤ g ∧ g ≤ st.k + 1 + N then
          Me (g - (st.k + 1)).toNat else 0) := by
  have aux : ∀ m : ℕ,
      ((List.range m).foldl
        (fun st j =>
          let k1 := st.k + 1
          let k2 := if 1 < 1 ∧ j = 0 then k1 - 1 else k1
          (⟨k2, fun g => if g = k2 then st.M g + Me j else st.M g⟩ :
            SeMassSt)) st).k = st.k + (m : ℤ) ∧
      ∀ g : ℤ,
      ((List.range m).foldl
        (fun st j =>
          let k1 := st.k + 1
          let k2 := if 1 < 1 ∧ j = 0 then k1 - 1 else k1
          (⟨k2, fun g => if g = k2 then st.M g + Me j else st.M g⟩ :
            SeMassSt)) st).M g
        = st.M g + (if st.k + 1 ≤ g ∧ g ≤ st.k + (m : ℤ) then
            Me (g - (st.k + 1)).toNat else 0) := by
    intro m
    induction m with
    | zero =>
      simp only [List.range_zero, List.foldl_nil]
      refine ⟨by push_cast; ring, fun g => ?_⟩
      rw [if_neg (by rintro ⟨h1, h2⟩; omega), add_zero]
    | succ m ih =>
      obtain ⟨ihk, ihM⟩ := ih
      have hcond : ¬(1 < 1 ∧ m = 0) := by omega
      rw [@List.range_succ m, List.foldl_append]
      simp only [List.foldl_cons, List.foldl_nil, if_neg hcond]
      constructor
      · simp only [ihk]
        push_cast
        ring
      · intro g
        simp only [ihk, ihM g]
        by_cases hg : g = st.k + (m : ℤ) + 1
        · rw [if_pos hg, if_neg (by
            rintro ⟨h1, h2⟩
            omega), add_zero,
            if_pos (show st.k + 1 ≤ g ∧ g ≤ st.k + ((m + 1 : ℕ) : ℤ)
              from ⟨by omega, by omega⟩),
            (show g - (st.k + 1) = (m : ℤ) by omega),
            (show ((m : ℤ)).toNat = m by omega)]
        · rw [if_neg hg]
          by_cases h2 : st.k + 1 ≤ g ∧ g ≤ st.k + (m : ℤ)
          · rw [if_pos h2,
              if_pos (show st.k + 1 ≤ g ∧ g ≤ st.k + ((m + 1 : ℕ) : ℤ)
                from ⟨h2.1, by omega⟩)]
          · rw [if_neg h2, if_neg (by
              rintro ⟨ha, hb⟩
              exact h2 ⟨ha, by omega⟩)]
  have h := aux (N + 1)
  unfold seHomoMassElem
  constructor
  · rw [h.1]
    push_cast
    ring
  · intro g
    rw [h.2 g]
    by_cases hc : st.k + 1 ≤ g ∧ g ≤ st.k + 1 + N
    · rw [if_pos (show st.k + 1 ≤ g ∧ g ≤ st.k + ((N + 1 : ℕ) : ℤ)
        from ⟨hc.1, by omega⟩), if_pos hc]
    · rw [if_neg (by
        rintro ⟨ha, hb⟩
        exact hc ⟨ha, by omega⟩), if_neg hc]
/-- Characterization of the homogeneous global mass assembly: the counter
ends at `ne*N`, only positions `0..ne*N` are written, and the total of
all written entries is `ne` copies of the elemental total. -/
theorem seHomoMass_spec (rho J : ℚ) (w : ℕ → ℚ) (N : ℕ) :
    ∀ ne, 1 ≤ ne →
    (seHomoMass rho J w N ne).k = ((ne * N : ℕ) : ℤ) ∧
    (∀ g : ℤ, g < 0 → (seHomoMass rho J w N ne).M g = 0) ∧
    (∀ g : ℤ, ((ne * N : ℕ) : ℤ) < g → (seHomoMass rho J w N ne).M g = 0) ∧
    ∑ x in Finset.range (ne * N + 1), (seHomoMass rho J w N ne).M (x : ℤ)
      = (ne : ℚ) * ∑ j in Finset.range (N + 1), MeHomo rho J w j := by
  intro ne hne
  induction ne, hne using Nat.le_induction with
  | base =>
    have hone : seHomoMass rho J w N 1
        = seHomoMassElem (MeHomo rho J w) N 1 ⟨-1, fun _ => 0⟩ := by
      unfold seHomoMass
      rw [@List.range_succ 0]
      simp only [List.range_zero, List.nil_append, List.foldl_cons,
        List.foldl_nil]
    obtain ⟨hk, hM⟩ := seHomoMassElem_one_spec (MeHomo rho J w) N
      (⟨-1, fun _ => 0⟩ : SeMassSt)
    have hk' : (seHomoMass rho J w N 1).k = ((1 * N : ℕ) : ℤ) := by
      rw [hone, hk]
      show (-1 : ℤ) + (N : ℤ) + 1 = ((1 * N : ℕ) : ℤ)
      push_cast
      ring
    have hM' : ∀ g : ℤ, (seHomoMass rho J w N 1).M g
        = if 0 ≤ g ∧ g ≤ (N : ℤ) then MeHomo rho J w g.toNat else 0 := by
      intro g
      rw [hone, hM g]
      show (0 : ℚ) + (if (-1 : ℤ) + 1 ≤ g ∧ g ≤ -1 + 1 + (N : ℤ) then
        MeHomo rho J w (g - (-1 + 1)).toNat else 0) = _
      rw [zero_add]
      by_cases hg : 0 ≤ g ∧ g ≤ (N : ℤ)
      · rw [if_pos (show (-1 : ℤ) + 1 ≤ g ∧ g ≤ -1 + 1 + (N : ℤ) from
          ⟨by omega, by omega⟩), if_pos hg,
          (show g - (-1 + 1) = g by omega)]
      · rw [if_neg (by
          rintro ⟨h1, h2⟩
          exact hg ⟨by omega, by omega⟩), if_neg hg]
    refine ⟨hk', ?_, ?_, ?_⟩
    · intro g hg
      rw [hM' g, if_neg (by rintro ⟨h1, h2⟩; omega)]
    · intro g hg
      have hcast : ((1 * N : ℕ) : ℤ) = (N : ℤ) := by push_cast; ring
      rw [hM' g, if_neg (by rintro ⟨h1, h2⟩; omega)]
    · have hrange : 1 * N + 1 = N + 1 := by omega
      rw [hrange]
      have h4 : ∑ x in Finset.range (N + 1), (seHomoMass rho J w N 1).M (x : ℤ)
          = ∑ x in Finset.range (N + 1), MeHomo rho J w x := by
        refine Finset.sum_congr rfl (fun x hx => ?_)
        rw [hM' (x : ℤ), if_pos (show (0 : ℤ) ≤ (x : ℤ) ∧ (x : ℤ) ≤ (N : ℤ)
          from ⟨by omega, by
            have := Finset.mem_range.mp hx
            omega⟩), (show ((x : ℤ)).toNat = x by omega)]
      rw [h4, Nat.cast_one, one_mul]
  | succ e he ih =>
    obtain ⟨ihk, ihneg, ihpos, ihsum⟩ := ih
    have hstep : seHomoMass rho J w N (e + 1)
        = seHomoMassElem (MeHomo rho J w) N (e + 1)
          (seHomoMass rho J w N e) := by
      unfold seHomoMass
      rw [@List.range_succ e, List.foldl_append]
      simp only [List.foldl_cons, List.foldl_nil]
    obtain ⟨hk, hM⟩ := seHomoMassElem_spec (MeHomo rho J w) N (e + 1)
      (by omega) (seHomoMass rho J w N e)
    have hmul : (e + 1) * N = e * N + N := Nat.succ_mul e N
    have hcast2 : (((e + 1) * N : ℕ) : ℤ) = ((e * N : ℕ) : ℤ) + (N : ℤ) := by
      rw [hmul]
      push_cast
      ring
    refine ⟨?_, ?_, ?_, ?_⟩
    · rw [hstep, hk, ihk, ← hcast2]
    · intro g hg
      rw [hstep, hM g, ihneg g hg, ihk, if_neg (by
        rintro ⟨h1, h2⟩
        omega), add_zero]
    · intro g hg
      have hgn : ((e * N : ℕ) : ℤ) < g := by omega
      rw [hstep, hM g, ihpos g hgn, ihk, if_neg (by
        rintro ⟨h1, h2⟩
        omega), add_zero]
    · have hA : ∑ x in Finset.range ((e + 1) * N + 1),
          (seHomoMass rho J w N (e + 1)).M (x : ℤ)
          = ∑ x in Finset.range ((e + 1) * N + 1),
            ((seHomoMass rho J w N e).M (x : ℤ)
              + (if ((e * N : ℕ) : ℤ) ≤ (x : ℤ) ∧
                  (x : ℤ) ≤ ((e * N : ℕ) : ℤ) + (N : ℤ) then
                MeHomo rho J w (((x : ℤ) - ((e * N : ℕ) : ℤ)).toNat)
                else 0)) := by
        refine Finset.sum_congr rfl (fun x _ => ?_)
        rw [hstep, hM (x : ℤ), ihk]
      rw [hA, Finset.sum_add_distrib]
      have hsubset : Finset.range (e * N + 1)
          ⊆ Finset.range ((e + 1) * N + 1) := by
        intro x hx
        rw [Finset.mem_range] at hx ⊢
        omega
      have hsum1 : ∑ x in Finset.range ((e + 1) * N + 1),
          (seHomoMass rho J w N e).M (x : ℤ)
          = ∑ x in Finset.range (e * N + 1),
            (seHomoMass rho J w N e).M (x : ℤ) := by
        rw [← Finset.sum_subset hsubset (by
          intro x _ hxnot
          rw [Finset.mem_range] at hxnot
          exact ihpos (x : ℤ) (by omega))]
      have hconv : ∀ x ∈ Finset.range ((e + 1) * N + 1),
          (if ((e * N : ℕ) : ℤ) ≤ (x : ℤ) ∧
              (x : ℤ) ≤ ((e * N : ℕ) : ℤ) + (N : ℤ) then
            MeHomo rho J w (((x : ℤ) - ((e * N : ℕ) : ℤ)).toNat) else 0)
          = (if e * N ≤ x ∧ x ≤ e * N + N then
              MeHomo rho J w (x - e * N) else 0) := by
        intro x _
        by_cases hx : e * N ≤ x ∧ x ≤ e * N + N
        · rw [if_pos hx, if_pos (show ((e * N : ℕ) : ℤ) ≤ (x : ℤ) ∧
            (x : ℤ) ≤ ((e * N : ℕ) : ℤ) + (N : ℤ) from
              ⟨by omega, by omega⟩),
            (show (((x : ℤ) - ((e * N : ℕ) : ℤ)).toNat) = x - e * N by
              omega)]
        · rw [if_neg hx, if_neg (by
            rintro ⟨h1, h2⟩
            exact hx ⟨by omega, by omega⟩)]
      have hB := Finset.sum_congr rfl hconv
      rw [hB, hsum1, ihsum,
        window_sum (fun j => MeHomo rho J w j) (e * N) N
          ((e + 1) * N + 1) (by omega)]
      push_cast
      ring

/-- Effect of the elemental-fill loop of the heterogeneous mass assembly:
the node counter advances by `N+1` and `Me[l]` becomes
`rho[m+1+l]*w[l]*J`; the global state is untouched. -/
theorem seHetMassFill_spec (rho : ℤ → ℚ) (w : ℕ → ℚ) (J : ℚ)
    (st : HetMassSt) : ∀ m : ℕ,
    ((List.range m).foldl
      (fun st l =>
        { st with
          m := st.m + 1
          Me := fun x => if x = l then rho (st.m + 1) * w l * J
            else st.Me x }) st).k = st.k ∧
    ((List.range m).foldl
      (fun st l =>
        { st with
          m := st.m + 1
          Me := fun x => if x = l then rho (st.m + 1) * w l * J
            else st.Me x }) st).m = st.m + (m : ℤ) ∧
    ((List.range m).foldl
      (fun st l =>
        { st with
          m := st.m + 1
          Me := fun x => if x = l then rho (st.m + 1) * w l * J
            else st.Me x }) st).M = st.M ∧
    ∀ l : ℕ,
    ((List.range m).foldl
      (fun st l =>
        { st with
          m := st.m + 1
          Me := fun x => if x = l then rho (st.m + 1) * w l * J
            else st.Me x }) st).Me l
      = if l < m then rho (st.m + 1 + (l : ℤ)) * w l * J else st.Me l := by
  intro m
  induction m with
  | zero =>
    simp only [List.range_zero, List.foldl_nil]
    refine ⟨by trivial, by push_cast; ring, by trivial, fun l => ?_⟩
    rw [if_neg (by omega)]
  | succ m ih =>
    obtain ⟨ihk, ihm, ihM, ihMe⟩ := ih
    rw [@List.range_succ m, List.foldl_append]
    simp only [List.foldl_cons, List.foldl_nil]
    refine ⟨ihk, ?_, ihM, fun l => ?_⟩
    · simp only [ihm]
      push_cast
      ring
    · simp only [ihm, ihMe l]
      by_cases hl : l = m
      · rw [if_pos hl, if_pos (by omega), hl,
          (show st.m + (m : ℤ) + 1 = st.m + 1 + (m : ℤ) by ring)]
      · rw [if_neg hl]
        by_cases h2 : l < m
        · rw [if_pos h2, if_pos (by omega)]
        · rw [if_neg h2, if_neg (by omega)]

/-- Effect of the `k`-walk of the heterogeneous mass assembly for an
element after the first: identical to the homogeneous walk, adding the
current elemental vector on the window `[k, k+N]`. -/
theorem seHetMassWalk_spec (N i : ℕ) (hi : 2 ≤ i) (st : HetMassSt) :
    ((List.range (N + 1)).foldl
      (fun st j =>
        let k1 := st.k + 1
        let k2 := if 1 < i ∧ j = 0 then k1 - 1 else k1
        { st with
          k := k2
          M := fun g => if g = k2 then st.M g + st.Me j else st.M g })
      st).k = st.k + N ∧
    ((List.range (N + 1)).foldl
      (fun st j =>
        let k1 := st.k + 1
        let k2 := if 1 < i ∧ j = 0 then k1 - 1 else k1
        { st with
          k := k2
          M := fun g => if g = k2 then st.M g + st.Me j else st.M g })
      st).m = st.m ∧
    ((List.range (N + 1)).foldl
      (fun st j =>
        let k1 := st.k + 1
        let k2 := if 1 < i ∧ j = 0 then k1 - 1 else k1
        { st with
          k := k2
          M := fun g => if g = k2 then st.M g + st.Me j else st.M g })
      st).Me = st.Me ∧
    ∀ g : ℤ,
    ((List.range (N + 1)).foldl
      (fun st j =>
        let k1 := st.k + 1
        let k2 := if 1 < i ∧ j = 0 then k1 - 1 else k1
        { st with
          k := k2
          M := fun g => if g = k2 then st.M g + st.Me j else st.M g })
      st).M g
      = st.M g + (if st.k ≤ g ∧ g ≤ st.k + N then st.Me (g - st.k).toNat
          else 0) := by
  have aux : ∀ m : ℕ, 1 ≤ m →
      ((List.range m).foldl
        (fun st j =>
          let k1 := st.k + 1
          let k2 := if 1 < i ∧ j = 0 then k1 - 1 else k1
          { st with
            k := k2
            M := fun g => if g = k2 then st.M g + st.Me j else st.M g })
        st).k = st.k + ((m : ℤ) - 1) ∧
      ((List.range m).foldl
        (fun st j =>
          let k1 := st.k + 1
          let k2 := if 1 < i ∧ j = 0 then k1 - 1 else k1
          { st with
            k := k2
            M := fun g => if g = k2 then st.M g + st.Me j else st.M g })
        st).m = st.m ∧
      ((List.range m).foldl
        (fun st j =>
          let k1 := st.k + 1
          let k2 := if 1 < i ∧ j = 0 then k1 - 1 else k1
          { st with
            k := k2
            M := fun g => if g = k2 then st.M g + st.Me j else st.M g })
        st).Me = st.Me ∧
      ∀ g : ℤ,
      ((List.range m).foldl
        (fun st j =>
          let k1 := st.k + 1
          let k2 := if 1 < i ∧ j = 0 then k1 - 1 else k1
          { st with
            k := k2
            M := fun g => if g = k2 then st.M g + st.Me j else st.M g })
        st).M g
        = st.M g + (if st.k ≤ g ∧ g ≤ st.k + ((m : ℤ) - 1) then
            st.Me (g - st.k).toNat else 0) := by
    intro m hm
    induction m, hm using Nat.le_induction with
    | base =>
      rw [@List.range_succ 0]
      simp only [List.range_zero, List.nil_append, List.foldl_cons,
        List.foldl_nil]
      rw [if_pos (show 1 < i ∧ True from ⟨by omega, trivial⟩)]
      refine ⟨?_, by trivial, by trivial, fun g => ?_⟩
      · show st.k + 1 - 1 = st.k + (((1 : ℕ) : ℤ) - 1)
        push_cast
        ring
      · show (if g = st.k + 1 - 1 then st.M g + st.Me 0 else st.M g)
          = st.M g + (if st.k ≤ g ∧ g ≤ st.k + (((1 : ℕ) : ℤ) - 1) then
              st.Me (g - st.k).toNat else 0)
        by_cases hg : g = st.k + 1 - 1
        · rw [if_pos hg, if_pos ⟨by omega, by omega⟩,
            (show g - st.k = 0 by omega)]
          rw [Int.toNat_zero]
        · rw [if_neg hg, if_neg (by
            rintro ⟨h1, h2⟩
            exact hg (by omega)), add_zero]
    | succ m hm ih =>
      obtain ⟨ihk, ihm, ihMe, ihM⟩ := ih
      have hcond : ¬(1 < i ∧ m = 0) := by omega
      rw [@List.range_succ m, List.foldl_append]
      simp only [List.foldl_cons, List.foldl_nil, if_neg hcond]
      refine ⟨?_, ihm, ihMe, fun g => ?_⟩
      · simp only [ihk]
        push_cast
        ring
      · simp only [ihk, ihM g, ihMe]
        by_cases hg : g = st.k + ((m : ℤ) - 1) + 1
        · rw [if_pos hg, if_neg (by
            rintro ⟨h1, h2⟩
            omega), add_zero,
            if_pos (show st.k ≤ g ∧ g ≤ st.k + (((m + 1 : ℕ) : ℤ) - 1)
              from ⟨by omega, by omega⟩),
            (show g - st.k = (m : ℤ) by omega),
            (show ((m : ℤ)).toNat = m by omega)]
        · rw [if_neg hg]
          by_cases h2 : st.k ≤ g ∧ g ≤ st.k + ((m : ℤ) - 1)
          · rw [if_pos h2,
              if_pos (show st.k ≤ g ∧ g ≤ st.k + (((m + 1 : ℕ) : ℤ) - 1)
                from ⟨h2.1, by omega⟩)]
          · rw [if_neg h2, if_neg (by
              rintro ⟨ha, hb⟩
              exact h2 ⟨ha, by omega⟩)]
  obtain ⟨hk, hm, hMe, hM⟩ := aux (N + 1) (by omega)
  refine ⟨?_, hm, hMe, fun g => ?_⟩
  · rw [hk]
    push_cast
    ring
  · rw [hM g]
    by_cases hc : st.k ≤ g ∧ g ≤ st.k + N
    · rw [if_pos (show st.k ≤ g ∧ g ≤ st.k + (((N + 1 : ℕ) : ℤ) - 1)
        from ⟨hc.1, by omega⟩), if_pos hc]
    · rw [if_neg (by
        rintro ⟨ha, hb⟩
        exact hc ⟨ha, by omega⟩), if_neg hc]

/-- Effect of the `k`-walk of the heterogeneous mass assembly for the
first element (no counter decrement). -/
theorem seHetMassWalk_one_spec (N : ℕ) (st : HetMassSt) :
    ((List.range (N + 1)).foldl
      (fun st j =>
        let k1 := st.k + 1
        let k2 := if 1 < 1 ∧ j = 0 then k1 - 1 else k1
        { st with
          k := k2
          M := fun g => if g = k2 then st.M g + st.Me j else st.M g })
      st).k = st.k + N + 1 ∧
    ((List.range (N + 1)).foldl
      (fun st j =>
        let k1 := st.k + 1
        let k2 := if 1 < 1 ∧ j = 0 then k1 - 1 else k1
        { st with
          k := k2
          M := fun g => if g = k2 then st.M g + st.Me j else st.M g })
      st).m = st.m ∧
    ((List.range (N + 1)).foldl
      (fun st j =>
        let k1 := st.k + 1
        let k2 := if 1 < 1 ∧ j = 0 then k1 - 1 else k1
        { st with
          k := k2
          M := fun g => if g = k2 then st.M g + st.Me j else st.M g })
      st).Me = st.Me ∧
    ∀ g : ℤ,
    ((List.range (N + 1)).foldl
      (fun st j =>
        let k1 := st.k + 1
        let k2 := if 1 < 1 ∧ j = 0 then k1 - 1 else k1
        { st with
          k := k2
          M := fun g => if g = k2 then st.M g + st.Me j else st.M g })
      st).M g
      = st.M g + (if st.k + 1 ≤ g ∧ g ≤ st.k + 1 + N then
          st.Me (g - (st.k + 1)).toNat else 0) := by
  have aux : ∀ m : ℕ,
      ((List.range m).foldl
        (fun st j =>
          let k1 := st.k + 1
          let k2 := if 1 < 1 ∧ j = 0 then k1 - 1 else k1
          { st with
            k := k2
            M := fun g => if g = k2 then st.M g + st.Me j else st.M g })
        st).k = st.k + (m : ℤ) ∧
      ((List.range m).foldl
        (fun st j =>
          let k1 := st.k + 1
          let k2 := if 1 < 1 ∧ j = 0 then k1 - 1 else k1
          { st with
            k := k2
            M := fun g => if g = k2 then st.M g + st.Me j else st.M g })
        st).m = st.m ∧
      ((List.range m).foldl
        (fun st j =>
          let k1 := st.k + 1
          let k2 := if 1 < 1 ∧ j = 0 then k1 - 1 else k1
          { st with
            k := k2
            M := fun g => if g = k2 then st.M g + st.Me j else st.M g })
        st).Me = st.Me ∧
      ∀ g : ℤ,
      ((List.range m).foldl
        (fun st j =>
          let k1 := st.k + 1
          let k2 := if 1 < 1 ∧ j = 0 then k1 - 1 else k1
          { st with
            k := k2
            M := fun g => if g = k2 then st.M g + st.Me j else st.M g })
        st).M g
        = st.M g + (if st.k + 1 ≤ g ∧ g ≤ st.k + (m : ℤ) then
            st.Me (g - (st.k + 1)).toNat else 0) := by
    intro m
    induction m with
    | zero =>
      simp only [List.range_zero, List.foldl_nil]
      refine ⟨by push_cast; ring, by trivial, by trivial, fun g => ?_⟩
      rw [if_neg (by rintro ⟨h1, h2⟩; omega), add_zero]
    | succ m ih =>
      obtain ⟨ihk, ihm, ihMe, ihM⟩ := ih
      have hcond : ¬(1 < 1 ∧ m = 0) := by omega
      rw [@List.range_succ m, List.foldl_append]
      simp only [List.foldl_cons, List.foldl_nil, if_neg hcond]
      refine ⟨?_, ihm, ihMe, fun g => ?_⟩
      · simp only [ihk]
        push_cast
        ring
      · simp only [ihk, ihM g, ihMe]
        by_cases hg : g = st.k + (m : ℤ) + 1
        · rw [if_pos hg, if_neg (by
            rintro ⟨h1, h2⟩
            omega), add_zero,
            if_pos (show st.k + 1 ≤ g ∧ g ≤ st.k + ((m + 1 : ℕ) : ℤ)
              from ⟨by omega, by omega⟩),
            (show g - (st.k + 1) = (m : ℤ) by omega),
            (show ((m : ℤ)).toNat = m by omega)]
        · rw [if_neg hg]
          by_cases h2 : st.k + 1 ≤ g ∧ g ≤ st.k + (m : ℤ)
          · rw [if_pos h2,
              if_pos (show st.k + 1 ≤ g ∧ g ≤ st.k + ((m + 1 : ℕ) : ℤ)
                from ⟨h2.1, by omega⟩)]
          · rw [if_neg h2, if_neg (by
              rintro ⟨ha, hb⟩
              exact h2 ⟨ha, by omega⟩)]
  obtain ⟨hk, hm, hMe, hM⟩ := aux (N + 1)
  refine ⟨?_, hm, hMe, fun g => ?_⟩
  · rw [hk]
    push_cast
    ring
  · rw [hM g]
    by_cases hc : st.k + 1 ≤ g ∧ g ≤ st.k + 1 + N
    · rw [if_pos (show st.k + 1 ≤ g ∧ g ≤ st.k + ((N + 1 : ℕ) : ℤ)
        from ⟨hc.1, by omega⟩), if_pos hc]
    · rw [if_neg (by
        rintro ⟨ha, hb⟩
        exact hc ⟨ha, by omega⟩), if_neg hc]


/-- Effect of one element (after the first) of the heterogeneous global
mass loop: counters advance by `N`, and on the window `[k, k+N]` the
density sampled at the matching global node is added. -/
theorem seHetMassElem_spec (rho : ℤ → ℚ) (w : ℕ → ℚ) (J : ℚ) (N i : ℕ)
    (hi : 2 ≤ i) (st : HetMassSt) :
    (seHetMassElem rho w J N i st).k = st.k + N ∧
    (seHetMassElem rho w J N i st).m = st.m + N ∧
    ∀ g : ℤ, (seHetMassElem rho w J N i st).M g
      = st.M g + (if st.k ≤ g ∧ g ≤ st.k + N then
          rho (st.m + 1 + (g - st.k)) * w (g - st.k).toNat * J else 0) := by
  obtain ⟨hfk, hfm, hfM, hfMe⟩ := seHetMassFill_spec rho w J st (N + 1)
  obtain ⟨hwk, hwm, hwMe, hwM⟩ := seHetMassWalk_spec N i hi
    (⟨((List.range (N + 1)).foldl
        (fun st l =>
          { st with
            m := st.m + 1
            Me := fun x => if x = l then rho (st.m + 1) * w l * J
              else st.Me x }) st).k,
      ((List.range (N + 1)).foldl
        (fun st l =>
          { st with
            m := st.m + 1
            Me := fun x => if x = l then rho (st.m + 1) * w l * J
              else st.Me x }) st).m - 1,
      ((List.range (N + 1)).foldl
        (fun st l =>
          { st with
            m := st.m + 1
            Me := fun x => if x = l then rho (st.m + 1) * w l * J
              else st.Me x }) st).Me,
      ((List.range (N + 1)).foldl
        (fun st l =>
          { st with
            m := st.m + 1
            Me := fun x => if x = l then rho (st.m + 1) * w l * J
              else st.Me x }) st).M⟩ : HetMassSt)
  simp only [seHetMassElem]
  refine ⟨?_, ?_, fun g => ?_⟩
  · rw [hwk]
    simp only [hfk]
  · rw [hwm]
    simp only [hfm]
    push_cast
    ring
  · rw [hwM g]
    simp only [hfk, hfM, hfMe, hfm]
    by_cases hc : st.k ≤ g ∧ g ≤ st.k + (N : ℤ)
    · rw [if_pos hc, if_pos hc, if_pos (by omega),
        (show ((g - st.k).toNat : ℤ) = g - st.k by omega)]
    · rw [if_neg hc, if_neg hc]

/-- Effect of the first element of the heterogeneous global mass loop. -/
theorem seHetMassElem_one_spec (rho : ℤ → ℚ) (w : ℕ → ℚ) (J : ℚ) (N : ℕ)
    (st : HetMassSt) :
    (seHetMassElem rho w J N 1 st).k = st.k + N + 1 ∧
    (seHetMassElem rho w J N 1 st).m = st.m + N ∧
    ∀ g : ℤ, (seHetMassElem rho w J N 1 st).M g
      = st.M g + (if st.k + 1 ≤ g ∧ g ≤ st.k + 1 + N then
          rho (st.m + 1 + (g - (st.k + 1))) * w (g - (st.k + 1)).toNat * J
          else 0) := by
  obtain ⟨hfk, hfm, hfM, hfMe⟩ := seHetMassFill_spec rho w J st (N + 1)
  obtain ⟨hwk, hwm, hwMe, hwM⟩ := seHetMassWalk_one_spec N
    (⟨((List.range (N + 1)).foldl
        (fun st l =>
          { st with
            m := st.m + 1
            Me := fun x => if x = l then rho (st.m + 1) * w l * J
              else st.Me x }) st).k,
      ((List.range (N + 1)).foldl
        (fun st l =>
          { st with
            m := st.m + 1
            Me := fun x => if x = l then rho (st.m + 1) * w l * J
              else st.Me x }) st).m - 1,
      ((List.range (N + 1)).foldl
        (fun st l =>
          { st with
            m := st.m + 1
            Me := fun x => if x = l then rho (st.m + 1) * w l * J
              else st.Me x }) st).Me,
      ((List.range (N + 1)).foldl
        (fun st l =>
          { st with
            m := st.m + 1
            Me := fun x => if x = l then rho (st.m + 1) * w l * J
              else st.Me x }) st).M⟩ : HetMassSt)
  simp only [seHetMassElem]
  refine ⟨?_, ?_, fun g => ?_⟩
  · rw [hwk]
    simp only [hfk]
  · rw [hwm]
    simp only [hfm]
    push_cast
    ring
  · rw [hwM g]
    simp only [hfk, hfM, hfMe, hfm]
    by_cases hc : st.k + 1 ≤ g ∧ g ≤ st.k + 1 + (N : ℤ)
    · rw [if_pos hc, if_pos hc, if_pos (by omega),
        (show ((g - (st.k + 1)).toNat : ℤ) = g - (st.k + 1) by omega)]
    · rw [if_neg hc, if_neg hc]

/-- The heterogeneous mass assembly contains no validation of the
material arrays: it runs to completion on any density field.  When every
density sample is nonpositive (and the quadrature weights and Jacobian
are nonnegative) every entry of the global mass vector it produces is
nonpositive. -/
theorem seHetMass_nonpos (rho : ℤ → ℚ) (w : ℕ → ℚ) (J : ℚ) (N ne : ℕ)
    (hrho : ∀ g, rho g ≤ 0) (hw : ∀ l, 0 ≤ w l) (hJ : 0 ≤ J) :
    ∀ g : ℤ, (seHetMass rho w J N ne).M g ≤ 0 := by
  have hprod : ∀ (g : ℤ) (l : ℕ), rho g * w l * J ≤ 0 := fun g l =>
    mul_nonpos_of_nonpos_of_nonneg
      (mul_nonpos_of_nonpos_of_nonneg (hrho g) (hw l)) hJ
  unfold seHetMass
  refine foldl_inv (fun s : HetMassSt => ∀ g, s.M g ≤ 0)
    _ _ _ (fun _ => le_refl 0) ?_
  intro s i1 hs g
  rcases Nat.eq_zero_or_pos i1 with h0 | hpos
  · subst h0
    show (seHetMassElem rho w J N 1 s).M g ≤ 0
    obtain ⟨-, -, hM⟩ := seHetMassElem_one_spec rho w J N s
    rw [hM g]
    by_cases hc : s.k + 1 ≤ g ∧ g ≤ s.k + 1 + N
    · rw [if_pos hc]
      exact add_nonpos (hs g) (hprod _ _)
    · rw [if_neg hc, add_zero]
      exact hs g
  · obtain ⟨-, -, hM⟩ := seHetMassElem_spec rho w J N (i1 + 1) (by omega) s
    rw [hM g]
    by_cases hc : s.k ≤ g ∧ g ≤ s.k + N
    · rw [if_pos hc]
      exact add_nonpos (hs g) (hprod _ _)
    · rw [if_neg hc, add_zero]
      exact hs g

/-- Sum of a restricted band over a full index range. -/
theorem band_sum (f : ℕ → ℚ) (lo hi n : ℕ) (h : hi < n) :
    ∑ j in Finset.range n, (if lo ≤ j ∧ j ≤ hi then f j else 0)
      = ∑ j in Finset.Icc lo hi, f j := by
  have hsub : Finset.Icc lo hi ⊆ Finset.range n := by
    intro x hx
    have := Finset.mem_Icc.mp hx
    exact Finset.mem_range.mpr (by omega)
  rw [← Finset.sum_subset hsub (by
    intro x _ hxnot
    rw [if_neg (fun hc => hxnot (Finset.mem_Icc.mpr ⟨hc.1, hc.2⟩))])]
  exact Finset.sum_congr rfl (fun x hx => if_pos (Finset.mem_Icc.mp hx))

/-- Sum of a tridiagonal row pattern over an index interval containing
the diagonal position. -/
theorem tri_sum (A B C : ℚ) (i lo hi : ℕ) (h1 : 1 ≤ i) (hlo : lo ≤ i)
    (hhi : i ≤ hi) :
    ∑ j in Finset.Icc lo hi,
      (if j = i then A else if j = i + 1 then B else if j = i - 1 then C
        else 0)
    = A + (if i + 1 ≤ hi then B else 0) + (if lo ≤ i - 1 then C else 0) := by
  have hsplit : ∀ j : ℕ, (if j = i then A else if j = i + 1 then B
      else if j = i - 1 then C else 0)
      = (if j = i then A else 0) + (if j = i + 1 then B else 0)
        + (if j = i - 1 then C else 0) := by
    intro j
    by_cases ha : j = i
    · rw [if_pos ha, if_pos ha, if_neg (show ¬j = i + 1 by omega),
        if_neg (show ¬j = i - 1 by omega)]
      ring
    · rw [if_neg ha, if_neg ha]
      by_cases hb : j = i + 1
      · rw [if_pos hb, if_pos hb, if_neg (show ¬j = i - 1 by omega)]
        ring
      · rw [if_neg hb, if_neg hb]
        by_cases hc : j = i - 1
        · rw [if_pos hc]
          ring
        · rw [if_neg hc]
          ring
  simp only [hsplit]
  rw [Finset.sum_add_distrib, Finset.sum_add_distrib]
  simp only [Finset.sum_ite_eq']
  rw [if_pos (Finset.mem_Icc.mpr ⟨hlo, hhi⟩)]
  congr 1
  · congr 1
    by_cases hB : i + 1 ≤ hi
    · rw [if_pos (Finset.mem_Icc.mpr ⟨by omega, hB⟩), if_pos hB]
    · rw [if_neg (fun hm => hB (Finset.mem_Icc.mp hm).2), if_neg hB]
  · by_cases hC : lo ≤ i - 1
    · rw [if_pos (Finset.mem_Icc.mpr ⟨hC, by omega⟩), if_pos hC]
    · rw [if_neg (fun hm => hC (Finset.mem_Icc.mp hm).1), if_neg hC]

/-- First row of the uniform-material W7 mass matrix: only the corner
entry is ever written, so the row sums to `p*dx/3`. -/
theorem W7M_uniform_row0 (p dx : ℚ) (nx : ℕ) (h3 : 3 ≤ nx) :
    ∑ j in Finset.range nx, W7M (fun _ => p) (fun _ => dx) nx 0 j
      = p * dx / 3 := by
  have hpt : ∀ j ∈ Finset.range nx, W7M (fun _ => p) (fun _ => dx) nx 0 j
      = if j = 0 then p * dx / 3 else 0 := by
    intro j _
    unfold W7M
    by_cases hj : j = 0
    · rw [if_pos (show (0 : ℕ) = 0 ∧ j = 0 from ⟨rfl, hj⟩), if_pos hj]
    · rw [if_neg (show ¬((0 : ℕ) = 0 ∧ j = 0) from fun hc => hj hc.2),
        if_neg (show ¬((0 : ℕ) = nx - 1 ∧ j = nx - 1) from
          fun hc => by omega),
        if_neg (show ¬(1 ≤ (0 : ℕ) ∧ (0 : ℕ) ≤ nx - 2 ∧ 1 ≤ j ∧ j ≤ nx - 2)
          from fun hc => by omega),
        if_neg hj]
  rw [Finset.sum_congr rfl hpt,
    Finset.sum_ite_eq' (Finset.range nx) 0 (fun _ => p * dx / 3),
    if_pos (Finset.mem_range.mpr (by omega))]

/-- Last row of the uniform-material W7 mass matrix: only the corner
entry is ever written, so the row sums to `p*dx/3`. -/
theorem W7M_uniform_rowlast (p dx : ℚ) (nx : ℕ) (h3 : 3 ≤ nx) :
    ∑ j in Finset.range nx, W7M (fun _ => p) (fun _ => dx) nx (nx - 1) j
      = p * dx / 3 := by
  have hpt : ∀ j ∈ Finset.range nx,
      W7M (fun _ => p) (fun _ => dx) nx (nx - 1) j
      = if j = nx - 1 then p * dx / 3 else 0 := by
    intro j _
    unfold W7M
    by_cases hj : j = nx - 1
    · rw [if_neg (show ¬(nx - 1 = 0 ∧ j = 0) from fun hc => by omega),
        if_pos (show nx - 1 = nx - 1 ∧ j = nx - 1 from ⟨rfl, hj⟩),
        if_pos hj]
    · rw [if_neg (show ¬(nx - 1 = 0 ∧ j = 0) from fun hc => by omega),
        if_neg (show ¬(nx - 1 = nx - 1 ∧ j = nx - 1) from
          fun hc => hj hc.2),
        if_neg (show ¬(1 ≤ nx - 1 ∧ nx - 1 ≤ nx - 2 ∧ 1 ≤ j ∧ j ≤ nx - 2)
          from fun hc => by omega),
        if_neg hj]
  rw [Finset.sum_congr rfl hpt,
    Finset.sum_ite_eq' (Finset.range nx) (nx - 1) (fun _ => p * dx / 3),
    if_pos (Finset.mem_range.mpr (by omega))]

/-- Interior rows of the uniform-material W7 mass matrix: diagonal plus
whichever of the two off-diagonal entries fall inside the written band
`[1, nx-2]`. -/
theorem W7M_uniform_rowint (p dx : ℚ) (nx i : ℕ) (h3 : 3 ≤ nx)
    (hi1 : 1 ≤ i) (hi2 : i ≤ nx - 2) :
    ∑ j in Finset.range nx, W7M (fun _ => p) (fun _ => dx) nx i j
      = (p * dx + p * dx) / 3
        + (if i + 1 ≤ nx - 2 then p * dx / 6 else 0)
        + (if 1 ≤ i - 1 then p * dx / 6 else 0) := by
  have hpt : ∀ j ∈ Finset.range nx, W7M (fun _ => p) (fun _ => dx) nx i j
      = if 1 ≤ j ∧ j ≤ nx - 2 then
          (if j = i then (p * dx + p * dx) / 3
           else if j = i + 1 then p * dx / 6
           else if j = i - 1 then p * dx / 6 else 0)
        else 0 := by
    intro j _
    unfold W7M
    rw [if_neg (show ¬(i = 0 ∧ j = 0) from fun hc => by omega),
      if_neg (show ¬(i = nx - 1 ∧ j = nx - 1) from fun hc => by omega)]
    by_cases hj : 1 ≤ j ∧ j ≤ nx - 2
    · rw [if_pos (show 1 ≤ i ∧ i ≤ nx - 2 ∧ 1 ≤ j ∧ j ≤ nx - 2 from
        ⟨hi1, hi2, hj.1, hj.2⟩), if_pos hj]
    · rw [if_neg (show ¬(1 ≤ i ∧ i ≤ nx - 2 ∧ 1 ≤ j ∧ j ≤ nx - 2) from
        fun hc => hj ⟨hc.2.2.1, hc.2.2.2⟩), if_neg hj]
  rw [Finset.sum_congr rfl hpt,
    band_sum _ 1 (nx - 2) nx (by omega),
    tri_sum ((p * dx + p * dx) / 3) (p * dx / 6) (p * dx / 6) i 1 (nx - 2)
      hi1 hi1 hi2]

/-- Total of all entries of the uniform-material W7 mass matrix:
`p*dx*(3*nx-5)/3`, which falls short of `p*dx*(nx-1)` (density times
domain length) by `2*p*dx/3` because the off-diagonal entries adjacent
to the two corner rows are never assembled. -/
theorem W7M_uniform_total (p dx : ℚ) (nx : ℕ) (h3 : 3 ≤ nx) :
    ∑ i in Finset.range nx, ∑ j in Finset.range nx,
      W7M (fun _ => p) (fun _ => dx) nx i j
      = p * dx * (3 * (nx : ℚ) - 5) / 3 := by
  have hrow : ∀ i ∈ Finset.Icc 1 (nx - 2),
      ∑ j in Finset.range nx, W7M (fun _ => p) (fun _ => dx) nx i j
      = (p * dx + p * dx) / 3
        + (if i + 1 ≤ nx - 2 then p * dx / 6 else 0)
        + (if 1 ≤ i - 1 then p * dx / 6 else 0) := by
    intro i hi
    have him := Finset.mem_Icc.mp hi
    exact W7M_uniform_rowint p dx nx i h3 him.1 him.2
  have hp2 : ∑ i in Finset.Icc 1 (nx - 2),
      (if i + 1 ≤ nx - 2 then p * dx / 6 else 0)
      = ((nx - 3 : ℕ) : ℚ) * (p * dx / 6) := by
    have hcg : ∀ i ∈ Finset.Icc 1 (nx - 2),
        (if i + 1 ≤ nx - 2 then p * dx / 6 else 0)
        = (if i ∈ Finset.Icc 1 (nx - 3) then p * dx / 6 else 0) := by
      intro i hi
      have him := Finset.mem_Icc.mp hi
      by_cases hc : i + 1 ≤ nx - 2
      · rw [if_pos hc, if_pos (Finset.mem_Icc.mpr ⟨by omega, by omega⟩)]
      · rw [if_neg hc, if_neg (fun hm => hc (by
          have := Finset.mem_Icc.mp hm
          omega))]
    rw [Finset.sum_congr rfl hcg, Finset.sum_ite_mem,
      (show Finset.Icc 1 (nx - 2) ∩ Finset.Icc 1 (nx - 3)
        = Finset.Icc 1 (nx - 3) by
          ext x
          simp only [Finset.mem_inter, Finset.mem_Icc]
          omega),
      Finset.sum_const, Nat.card_Icc,
      (show nx - 3 + 1 - 1 = nx - 3 by omega), nsmul_eq_mul]
  have hp3 : ∑ i in Finset.Icc 1 (nx - 2),
      (if 1 ≤ i - 1 then p * dx / 6 else 0)
      = ((nx - 3 : ℕ) : ℚ) * (p * dx / 6) := by
    have hcg : ∀ i ∈ Finset.Icc 1 (nx - 2),
        (if 1 ≤ i - 1 then p * dx / 6 else 0)
        = (if i ∈ Finset.Icc 2 (nx - 2) then p * dx / 6 else 0) := by
      intro i hi
      have him := Finset.mem_Icc.mp hi
      by_cases hc : 1 ≤ i - 1
      · rw [if_pos hc, if_pos (Finset.mem_Icc.mpr ⟨by omega, by omega⟩)]
      · rw [if_neg hc, if_neg (fun hm => hc (by
          have := Finset.mem_Icc.mp hm
          omega))]
    rw [Finset.sum_congr rfl hcg, Finset.sum_ite_mem,
      (show Finset.Icc 1 (nx - 2) ∩ Finset.Icc 2 (nx - 2)
        = Finset.Icc 2 (nx - 2) by
          ext x
          simp only [Finset.mem_inter, Finset.mem_Icc]
          omega),
      Finset.sum_const, Nat.card_Icc,
      (show nx - 2 + 1 - 2 = nx - 3 by omega), nsmul_eq_mul]
  have hI : ∑ i in Finset.Icc 1 (nx - 2), ∑ j in Finset.range nx,
      W7M (fun _ => p) (fun _ => dx) nx i j
      = ((nx - 2 : ℕ) : ℚ) * ((p * dx + p * dx) / 3)
        + ((nx - 3 : ℕ) : ℚ) * (p * dx / 6)
        + ((nx - 3 : ℕ) : ℚ) * (p * dx / 6) := by
    rw [Finset.sum_congr rfl hrow, Finset.sum_add_distrib,
      Finset.sum_add_distrib, hp2, hp3, Finset.sum_const, Nat.card_Icc,
      (show nx - 2 + 1 - 1 = nx - 2 by omega), nsmul_eq_mul]
  have hset : Finset.range nx
      = insert 0 (insert (nx - 1) (Finset.Icc 1 (nx - 2))) := by
    ext x
    simp only [Finset.mem_range, Finset.mem_insert, Finset.mem_Icc]
    omega
  have houter : ∑ i in Finset.range nx, ∑ j in Finset.range nx,
      W7M (fun _ => p) (fun _ => dx) nx i j
      = ∑ i in insert 0 (insert (nx - 1) (Finset.Icc 1 (nx - 2))),
          ∑ j in Finset.range nx, W7M (fun _ => p) (fun _ => dx) nx i j :=
    Finset.sum_congr hset (fun x _ => rfl)
  rw [houter, Finset.sum_insert (by
      intro hm
      rcases Finset.mem_insert.mp hm with h | h
      · omega
      · have := Finset.mem_Icc.mp h
        omega),
    Finset.sum_insert (by
      intro hm
      have := Finset.mem_Icc.mp hm
      omega)]
  rw [W7M_uniform_row0 p dx nx h3, W7M_uniform_rowlast p dx nx h3, hI]
  have hc2 : ((nx - 2 : ℕ) : ℚ) = (nx : ℚ) - 2 := by
    rw [Nat.cast_sub (by omega : 2 ≤ nx)]
    norm_num
  have hc3 : ((nx - 3 : ℕ) : ℚ) = (nx : ℚ) - 3 := by
    rw [Nat.cast_sub (by omega : 3 ≤ nx)]
    norm_num
  rw [hc2, hc3]
  ring

/-- One-step unfolding of the homogeneous W9 run. -/
theorem seHomoRun_succ (Minv K : ℕ → ℕ → ℚ) (src : List ℚ)
    (isrc ng idisp : ℕ) (dt : ℚ) (n : ℕ) :
    seHomoRun Minv K src isrc ng idisp dt (n + 1)
      = seHomoStep Minv K src isrc ng idisp dt n
          (seHomoRun Minv K src isrc ng idisp dt n) := by
  unfold seHomoRun
  rw [@List.range_succ n, List.foldl_append]
  simp only [List.foldl_cons, List.foldl_nil]

/-- One-step unfolding of the heterogeneous W9 run. -/
theorem seHetRun_succ (Minv K : ℕ → ℕ → ℚ) (src : List ℚ)
    (isrc ng idisp : ℕ) (dt : ℚ) (n : ℕ) :
    seHetRun Minv K src isrc ng idisp dt (n + 1)
      = seHetStep Minv K src isrc ng idisp dt n
          (seHetRun Minv K src isrc ng idisp dt n) := by
  unfold seHetRun
  rw [@List.range_succ n, List.foldl_append]
  simp only [List.foldl_cons, List.foldl_nil]

/-- One-step unfolding of the W7 run. -/
theorem feRun_succ (Minv K Mfd D : ℕ → ℕ → ℚ) (fvec srcf : ℕ → ℚ)
    (nx idisp : ℕ) (dt dx : ℚ) (n : ℕ) :
    feRun Minv K Mfd D fvec srcf nx idisp dt dx (n + 1)
      = feStep Minv K Mfd D fvec srcf nx idisp dt dx n
          (feRun Minv K Mfd D fvec srcf nx idisp dt dx n) := by
  unfold feRun
  rw [@List.range_succ n, List.foldl_append]
  simp only [List.foldl_cons, List.foldl_nil]

/-- One-step unfolding of the W5 Chebyshev run. -/
theorem chebyRun_succ (D : ℕ → ℕ → ℚ) (mu rho sg srcf : ℕ → ℚ)
    (nx idisp : ℕ) (dt : ℚ) (n : ℕ) :
    chebyRun D mu rho sg srcf nx idisp dt (n + 1)
      = chebyStep D mu rho sg srcf nx idisp dt n
          (chebyRun D mu rho sg srcf nx idisp dt n) := by
  unfold chebyRun
  rw [@List.range_succ n, List.foldl_append]
  simp only [List.foldl_cons, List.foldl_nil]

/-- One-step unfolding of the W5 Fourier run. -/
theorem fourierRun_succ (fd2 : (ℕ → ℚ) → ℕ → ℚ) (c dt dx : ℚ)
    (sg srcf : ℕ → ℚ) (nx idisp : ℕ) (n : ℕ) :
    fourierRun fd2 c dt dx sg srcf nx idisp (n + 1)
      = fourierStep fd2 c dt dx sg srcf nx idisp n
          (fourierRun fd2 c dt dx sg srcf nx idisp n) := by
  unfold fourierRun
  rw [@List.range_succ n, List.foldl_append]
  simp only [List.foldl_cons, List.foldl_nil]

/-- The snapshot array written by one homogeneous W9 step: row `it/idisp`
receives the new field when `it % idisp = 0`, everything else is kept. -/
theorem seHomoStep_res (Minv K : ℕ → ℕ → ℚ) (src : List ℚ)
    (isrc ng idisp : ℕ) (dt : ℚ) (it : ℕ) (s : SeSt) (r c : ℕ) :
    (seHomoStep Minv K src isrc ng idisp dt it s).res r c
      = if it % idisp = 0 ∧ r = it / idisp then
          (seHomoStep Minv K src isrc ng idisp dt it s).u c
        else s.res r c := by
  by_cases h1 : it % idisp = 0
  · by_cases h2 : r = it / idisp
    · rw [if_pos ⟨h1, h2⟩]
      simp only [seHomoStep, if_pos h1, if_pos h2]
    · rw [if_neg (fun hc => h2 hc.2)]
      simp only [seHomoStep, if_pos h1, if_neg h2]
  · rw [if_neg (fun hc => h1 hc.1)]
    simp only [seHomoStep, if_neg h1]

/-- Full characterization of the homogeneous W9 snapshot array: row `r`
holds the field computed at step `r*idisp` as soon as that step has run,
and rows of steps not yet reached still hold the preallocated zeros. -/
theorem seHomoRun_res_spec (Minv K : ℕ → ℕ → ℚ) (src : List ℚ)
    (isrc ng idisp : ℕ) (dt : ℚ) (hid : 0 < idisp) :
    ∀ n r c, (seHomoRun Minv K src isrc ng idisp dt n).res r c
      = if r * idisp < n then
          (seHomoRun Minv K src isrc ng idisp dt (r * idisp + 1)).u c
        else 0 := by
  intro n
  induction n with
  | zero =>
    intro r c
    rw [if_neg (by omega)]
    simp only [seHomoRun, List.range_zero, List.foldl_nil]
  | succ n ih =>
    intro r c
    rw [seHomoRun_succ, seHomoStep_res]
    by_cases h1 : n % idisp = 0 ∧ r = n / idisp
    · rw [if_pos h1]
      have hrn : r * idisp = n := by
        obtain ⟨hm, hr⟩ := h1
        have hdm := Nat.div_add_mod n idisp
        subst hr
        have hcomm : n / idisp * idisp = idisp * (n / idisp) :=
          Nat.mul_comm _ _
        omega
      rw [if_pos (by omega), hrn, ← seHomoRun_succ]
    · rw [if_neg h1, ih r c]
      have hne : ¬(r * idisp = n) := by
        intro he
        apply h1
        have hm0 : n % idisp = 0 := by
          rw [← he]
          exact Nat.mul_mod_left r idisp
        refine ⟨hm0, ?_⟩
        have hdm2 := Nat.div_add_mod n idisp
        have hco : idisp * (n / idisp) = idisp * r := by
          rw [Nat.mul_comm idisp r, he]
          omega
        exact (Nat.eq_of_mul_eq_mul_left hid hco).symm
      by_cases h2 : r * idisp < n
      · rw [if_pos h2, if_pos (by omega)]
      · rw [if_neg h2, if_neg (by omega)]

/-- Exact snapshot count: among steps `0 ≤ it < n` exactly
`ceil(n/idisp) = (n + idisp - 1)/idisp` satisfy `it % idisp = 0`. -/
theorem snapshot_count (idisp : ℕ) (hid : 0 < idisp) : ∀ n : ℕ,
    ((Finset.range n).filter (fun it => it % idisp = 0)).card
      = (n + idisp - 1) / idisp := by
  intro n
  induction n with
  | zero =>
    rw [Finset.range_zero, Finset.filter_empty, Finset.card_empty,
      Nat.div_eq_of_lt (by omega)]
  | succ n ih =>
    rw [Finset.range_succ, Finset.filter_insert]
    by_cases h : n % idisp = 0
    · rw [if_pos h, Finset.card_insert_of_not_mem (by
        intro hm
        exact absurd (Finset.mem_range.mp (Finset.mem_filter.mp hm).1)
          (lt_irrefl n)), ih]
      have hdm := Nat.div_add_mod n idisp
      have h1 : n + idisp - 1 = idisp * (n / idisp) + (idisp - 1) := by
        omega
      have h2 : n + 1 + idisp - 1 = idisp * (n / idisp) + idisp := by
        omega
      have hA : (n + idisp - 1) / idisp = n / idisp := by
        rw [h1, Nat.mul_add_div hid,
          Nat.div_eq_of_lt (show idisp - 1 < idisp by omega)]
        omega
      have hB : (n + 1 + idisp - 1) / idisp = n / idisp + 1 := by
        rw [h2, Nat.mul_add_div hid, Nat.div_self hid]
      omega
    · rw [if_neg h, ih]
      have hdm := Nat.div_add_mod n idisp
      have hmlt : n % idisp < idisp := Nat.mod_lt n hid
      have hmod1 : 1 ≤ n % idisp := Nat.one_le_iff_ne_zero.mpr h
      have h1 : n + idisp - 1 = idisp * (n / idisp)
          + ((n % idisp - 1) + idisp) := by omega
      have h2 : n + 1 + idisp - 1 = idisp * (n / idisp)
          + (n % idisp + idisp) := by omega
      have hA : (n + idisp - 1) / idisp = n / idisp + 1 := by
        rw [h1, Nat.mul_add_div hid, Nat.add_div_right _ hid,
          Nat.div_eq_of_lt (show n % idisp - 1 < idisp by omega)]
      have hB : (n + 1 + idisp - 1) / idisp = n / idisp + 1 := by
        rw [h2, Nat.mul_add_div hid, Nat.add_div_right _ hid,
          Nat.div_eq_of_lt hmlt]
      omega

/-- The Fourier-field snapshot array written by one W5 Fourier step. -/
theorem fourierStep_resSp (fd2 : (ℕ → ℚ) → ℕ → ℚ) (c0 dt dx : ℚ)
    (sg srcf : ℕ → ℚ) (nx idisp : ℕ) (it : ℕ) (s : FoSt) (r c : ℕ) :
    (fourierStep fd2 c0 dt dx sg srcf nx idisp it s).resSp r c
      = if it % idisp = 0 ∧ r = it / idisp then
          (fourierStep fd2 c0 dt dx sg srcf nx idisp it s).sp c
        else s.resSp r c := by
  by_cases h1 : it % idisp = 0
  · by_cases h2 : r = it / idisp
    · rw [if_pos ⟨h1, h2⟩]
      simp only [fourierStep, if_pos h1, if_pos h2]
    · rw [if_neg (fun hc => h2 hc.2)]
      simp only [fourierStep, if_pos h1, if_neg h2]
  · rw [if_neg (fun hc => h1 hc.1)]
    simp only [fourierStep, if_neg h1]

/-- Full characterization of the W5 Fourier-field snapshot array. -/
theorem fourierRun_resSp_spec (fd2 : (ℕ → ℚ) → ℕ → ℚ) (c0 dt dx : ℚ)
    (sg srcf : ℕ → ℚ) (nx idisp : ℕ) (hid : 0 < idisp) :
    ∀ n r c, (fourierRun fd2 c0 dt dx sg srcf nx idisp n).resSp r c
      = if r * idisp < n then
          (fourierRun fd2 c0 dt dx sg srcf nx idisp (r * idisp + 1)).sp c
        else 0 := by
  intro n
  induction n with
  | zero =>
    intro r c
    rw [if_neg (by omega)]
    simp only [fourierRun, List.range_zero, List.foldl_nil]
  | succ n ih =>
    intro r c
    rw [fourierRun_succ, fourierStep_resSp]
    by_cases h1 : n % idisp = 0 ∧ r = n / idisp
    · rw [if_pos h1]
      have hrn : r * idisp = n := by
        obtain ⟨hm, hr⟩ := h1
        have hdm := Nat.div_add_mod n idisp
        subst hr
        have hcomm : n / idisp * idisp = idisp * (n / idisp) :=
          Nat.mul_comm _ _
        omega
      rw [if_pos (by omega), hrn, ← fourierRun_succ]
    · rw [if_neg h1, ih r c]
      have hne : ¬(r * idisp = n) := by
        intro he
        apply h1
        have hm0 : n % idisp = 0 := by
          rw [← he]
          exact Nat.mul_mod_left r idisp
        refine ⟨hm0, ?_⟩
        have hdm2 := Nat.div_add_mod n idisp
        have hco : idisp * (n / idisp) = idisp * r := by
          rw [Nat.mul_comm idisp r, he]
          omega
        exact (Nat.eq_of_mul_eq_mul_left hid hco).symm
      by_cases h2 : r * idisp < n
      · rw [if_pos h2, if_pos (by omega)]
      · rw [if_neg h2, if_neg (by omega)]

/-- After every W5 Chebyshev step the two endpoint nodes of the current
field are zero. -/
theorem chebyRun_boundary_zero (D : ℕ → ℕ → ℚ) (mu rho sg srcf : ℕ → ℚ)
    (nx idisp : ℕ) (dt : ℚ) (n : ℕ) :
    (chebyRun D mu rho sg srcf nx idisp dt (n + 1)).u 0 = 0
      ∧ (chebyRun D mu rho sg srcf nx idisp dt (n + 1)).u nx = 0 := by
  rw [chebyRun_succ]
  constructor
  · show (if (0 : ℕ) = nx then 0 else if (0 : ℕ) = 0 then 0 else _) = 0
    by_cases h : (0 : ℕ) = nx
    · rw [if_pos h]
    · rw [if_neg h, if_pos rfl]
  · show (if nx = nx then 0 else if nx = 0 then 0 else _) = 0
    rw [if_pos rfl]

/-- After every W5 Fourier step the pinned nodes of the three current
fields are zero: `sp[1]`, `sp[nx-1]`, `p[0]`, `p[nx-1]`, `ap[0]`,
`ap[nx-1]`. -/
theorem fourierRun_boundary_zero (fd2 : (ℕ → ℚ) → ℕ → ℚ) (c0 dt dx : ℚ)
    (sg srcf : ℕ → ℚ) (nx idisp : ℕ) (n : ℕ) :
    (fourierRun fd2 c0 dt dx sg srcf nx idisp (n + 1)).sp 1 = 0
      ∧ (fourierRun fd2 c0 dt dx sg srcf nx idisp (n + 1)).sp (nx - 1) = 0
      ∧ (fourierRun fd2 c0 dt dx sg srcf nx idisp (n + 1)).p 0 = 0
      ∧ (fourierRun fd2 c0 dt dx sg srcf nx idisp (n + 1)).p (nx - 1) = 0
      ∧ (fourierRun fd2 c0 dt dx sg srcf nx idisp (n + 1)).ap 0 = 0
      ∧ (fourierRun fd2 c0 dt dx sg srcf nx idisp (n + 1)).ap (nx - 1)
          = 0 := by
  rw [fourierRun_succ]
  refine ⟨?_, ?_, ?_, ?_, ?_, ?_⟩
  · show (if (1 : ℕ) = nx - 1 then 0 else if (1 : ℕ) = 1 then 0 else _) = 0
    by_cases h : (1 : ℕ) = nx - 1
    · rw [if_pos h]
    · rw [if_neg h, if_pos rfl]
  · show (if nx - 1 = nx - 1 then 0 else _) = 0
    rw [if_pos rfl]
  · show (if (0 : ℕ) = nx - 1 then 0 else if (0 : ℕ) = 0 then 0 else _) = 0
    by_cases h : (0 : ℕ) = nx - 1
    · rw [if_pos h]
    · rw [if_neg h, if_pos rfl]
  · show (if nx - 1 = nx - 1 then 0 else _) = 0
    rw [if_pos rfl]
  · show (if (0 : ℕ) = nx - 1 then 0 else if (0 : ℕ) = 0 then 0 else _) = 0
    by_cases h : (0 : ℕ) = nx - 1
    · rw [if_pos h]
    · rw [if_neg h, if_pos rfl]
  · show (if nx - 1 = nx - 1 then 0 else _) = 0
    rw [if_pos rfl]

/-- The force vector writes `src[it-1]` at node `isrc-1` while the
source is active. -/
theorem forceVec_inject (src : List ℚ) (isrc ng it : ℕ)
    (h1 : 1 ≤ isrc) (hit : it < src.length) :
    forceVec src isrc ng it (isrc - 1) = pyGetD src ((it : ℤ) - 1) := by
  have hpy : pyIdx ng ((isrc : ℤ) - 1) = (isrc : ℤ) - 1 := by
    unfold pyIdx
    rw [if_neg (by omega)]
  unfold forceVec
  rw [if_pos ⟨hit, by rw [hpy]; omega⟩]

/-- Away from the source node the force vector is zero. -/
theorem forceVec_zero (src : List ℚ) (isrc ng it g : ℕ)
    (hg : ¬((g : ℤ) = pyIdx ng ((isrc : ℤ) - 1))) :
    forceVec src isrc ng it g = 0 := by
  unfold forceVec
  rw [if_neg (fun hc => hg hc.2)]

/-- For positive step index the injected amplitude really is the wavelet
sample `src[it-1]`. -/
theorem pyGetD_pos (src : List ℚ) (it : ℕ) (h1 : 1 ≤ it) :
    pyGetD src ((it : ℤ) - 1) = src.getD (it - 1) 0 := by
  unfold pyGetD
  rw [if_pos (by omega), (show ((it : ℤ) - 1).toNat = it - 1 by omega)]

/-- At the very first step the read `src[it-1]` wraps to the LAST sample
of the source array. -/
theorem pyGetD_first (src : List ℚ) (hlen : 0 < src.length) :
    pyGetD src (((0 : ℕ) : ℤ) - 1) = src.getD (src.length - 1) 0 := by
  unfold pyGetD
  rw [if_neg (by omega),
    if_pos (by
      rw [(show (-(((0 : ℕ) : ℤ) - 1)).toNat = 1 by omega)]
      omega),
    (show (-(((0 : ℕ) : ℤ) - 1)).toNat = 1 by omega)]

/-- The Chebyshev nodes are strictly decreasing in the index. -/
theorem chebyX_strictAnti (nx i j : ℕ) (h1 : 1 ≤ nx) (hij : i < j)
    (hj : j ≤ nx) : chebyX nx j < chebyX nx i := by
  have hnx : (0 : ℝ) < nx := Nat.cast_pos.mpr (by omega)
  have hij' : (i : ℝ) < j := Nat.cast_lt.mpr hij
  have hj' : (j : ℝ) ≤ nx := Nat.cast_le.mpr hj
  unfold chebyX
  apply Real.cos_lt_cos_of_nonneg_of_le_pi
  · positivity
  · rw [div_le_iff₀ hnx]
    nlinarith [mul_nonneg Real.pi_pos.le (sub_nonneg.mpr hj')]
  · rw [div_lt_div_iff₀ hnx hnx]
    nlinarith [mul_pos (mul_pos Real.pi_pos hnx) (sub_pos.mpr hij')]

/-- Distinct node indices give distinct Chebyshev nodes. -/
theorem chebyX_ne (nx i j : ℕ) (h1 : 1 ≤ nx) (hi : i ≤ nx) (hj : j ≤ nx)
    (hne : i ≠ j) : chebyX nx i ≠ chebyX nx j := by
  rcases Nat.lt_or_ge i j with h | h
  · exact ne_of_gt (chebyX_strictAnti nx i j h1 h hj)
  · have hlt : j < i := by omega
    exact ne_of_lt (chebyX_strictAnti nx j i h1 hlt hi)

/-- Interior Chebyshev nodes are strictly below `1`. -/
theorem chebyX_lt_one (nx i : ℕ) (h1 : 1 ≤ nx) (hi0 : 1 ≤ i)
    (hin : i ≤ nx) : chebyX nx i < 1 := by
  have h0 : chebyX nx 0 = 1 := by
    unfold chebyX
    norm_num
  have := chebyX_strictAnti nx 0 i h1 (by omega) hin
  linarith

/-- Interior Chebyshev nodes are strictly above `-1`. -/
theorem neg_one_lt_chebyX (nx i : ℕ) (h1 : 1 ≤ nx) (hin : i < nx) :
    -1 < chebyX nx i := by
  have hnx : (nx : ℝ) ≠ 0 := Nat.cast_ne_zero.mpr (by omega)
  have hend : chebyX nx nx = -1 := by
    unfold chebyX
    rw [mul_div_assoc, div_self hnx, mul_one, Real.cos_pi]
  have := chebyX_strictAnti nx i nx h1 hin (le_refl nx)
  linarith

/-- The interior diagonal denominator of `get_cheby_matrix` never
vanishes. -/
theorem cheby_diag_denom_ne (nx i : ℕ) (h1 : 1 ≤ nx) (hi0 : i ≠ 0)
    (hin : i ≠ nx) (hile : i ≤ nx) :
    2 * (1 - chebyX nx i * chebyX nx i) ≠ 0 := by
  have hlt := chebyX_lt_one nx i h1 (by omega) hile
  have hgt := neg_one_lt_chebyX nx i h1 (by omega)
  have hpos : 0 < 2 * (1 - chebyX nx i * chebyX nx i) := by
    nlinarith [mul_pos (show (0 : ℝ) < 1 - chebyX nx i by linarith)
      (show (0 : ℝ) < 1 + chebyX nx i by linarith)]
  exact ne_of_gt hpos

/-- The endpoint weights are never zero. -/
theorem chebyC_ne_zero (nx i : ℕ) : chebyC nx i ≠ 0 := by
  unfold chebyC
  by_cases h : i = 0 ∨ i = nx
  · rw [if_pos h]
    norm_num
  · rw [if_neg h]
    norm_num

/-- Every entry of the returned Chebyshev differentiation matrix is a
finite real number (no entry is left as a failed division). -/
theorem get_cheby_matrix_isSome (nx : ℕ) (h1 : 1 ≤ nx) (i j : ℕ)
    (hi : i ≤ nx) (hj : j ≤ nx) : (get_cheby_matrix nx i j).isSome := by
  unfold get_cheby_matrix
  by_cases h00 : i = 0 ∧ j = 0
  · rw [if_pos h00]
    rfl
  · rw [if_neg h00]
    by_cases hnn : i = nx ∧ j = nx
    · rw [if_pos hnn]
      rfl
    · rw [if_neg hnn]
      unfold chebyEntry
      by_cases hd : i = j ∧ i ≠ 0 ∧ i ≠ nx
      · rw [if_pos hd,
          if_neg (cheby_diag_denom_ne nx i h1 hd.2.1 hd.2.2 hi)]
        rfl
      · rw [if_neg hd]
        have hne : i ≠ j := by
          intro he
          apply hd
          refine ⟨he, ?_, ?_⟩
          · intro h0
            exact h00 ⟨h0, by omega⟩
          · intro hn
            exact hnn ⟨hn, by omega⟩
        rw [if_neg (mul_ne_zero (chebyC_ne_zero nx j)
          (sub_ne_zero.mpr (chebyX_ne nx i j h1 hi hj hne)))]
        rfl

/-- Before the overwrite, the looped formula fails on the `(0,0)` corner:
its denominator is zero. -/
theorem chebyEntry_corner0_none (nx : ℕ) : chebyEntry nx 0 0 = none := by
  unfold chebyEntry
  rw [if_neg (fun hc => hc.2.1 rfl),
    if_pos (show chebyC nx 0 * (chebyX nx 0 - chebyX nx 0) = 0 by
      rw [sub_self, mul_zero])]

/-- Before the overwrite, the looped formula fails on the `(nx,nx)`
corner: its denominator is zero. -/
theorem chebyEntry_cornerN_none (nx : ℕ) : chebyEntry nx nx nx = none := by
  unfold chebyEntry
  rw [if_neg (fun hc => hc.2.2 rfl),
    if_pos (show chebyC nx nx * (chebyX nx nx - chebyX nx nx) = 0 by
      rw [sub_self, mul_zero])]

/-- The overwritten `(0,0)` corner value. -/
theorem get_cheby_matrix_00 (nx : ℕ) :
    get_cheby_matrix nx 0 0 = some ((2 * (nx : ℝ) ^ 2 + 1) / 6) := by
  unfold get_cheby_matrix
  rw [if_pos ⟨rfl, rfl⟩]

/-- The overwritten `(nx,nx)` corner value. -/
theorem get_cheby_matrix_NN (nx : ℕ) (h1 : 1 ≤ nx) :
    get_cheby_matrix nx nx nx
      = some (-((2 * (nx : ℝ) ^ 2 + 1) / 6)) := by
  unfold get_cheby_matrix
  rw [if_neg (fun hc => by omega), if_pos ⟨rfl, rfl⟩]

/-- C1: each pass of the three embedded time-extrapolation loops
(spectral-element homogeneous and heterogeneous, and the W7
finite-element loop) computes the new field as
`dt^2 * Minv @ (f - K @ u) + 2*u - uold` and then rotates the state,
the previous field becoming the current one. -/
theorem C1_time_stepper_formula (Minv K Mfd D : ℕ → ℕ → ℚ)
    (src : List ℚ) (fvec srcf : ℕ → ℚ) (isrc ng idisp : ℕ)
    (dt dx : ℚ) (n : ℕ) :
    ((seHomoRun Minv K src isrc ng idisp dt (n + 1)).u = fun g =>
        dt ^ 2 * matVec ng Minv (fun x => forceVec src isrc ng n x
          - matVec ng K (seHomoRun Minv K src isrc ng idisp dt n).u x) g
        + 2 * (seHomoRun Minv K src isrc ng idisp dt n).u g
        - (seHomoRun Minv K src isrc ng idisp dt n).uold g)
    ∧ (seHomoRun Minv K src isrc ng idisp dt (n + 1)).uold
        = (seHomoRun Minv K src isrc ng idisp dt n).u
    ∧ ((seHetRun Minv K src isrc ng idisp dt (n + 1)).u = fun g =>
        dt ^ 2 * matVec ng Minv (fun x => forceVec src isrc ng n x
          - matVec ng K (seHetRun Minv K src isrc ng idisp dt n).u x) g
        + 2 * (seHetRun Minv K src isrc ng idisp dt n).u g
        - (seHetRun Minv K src isrc ng idisp dt n).uold g)
    ∧ (seHetRun Minv K src isrc ng idisp dt (n + 1)).uold
        = (seHetRun Minv K src isrc ng idisp dt n).u
    ∧ ((feRun Minv K Mfd D fvec srcf ng idisp dt dx (n + 1)).u = fun g =>
        dt ^ 2 * matVec ng Minv (fun x => fvec x * srcf n
          - matVec ng K
              (feRun Minv K Mfd D fvec srcf ng idisp dt dx n).u x) g
        + 2 * (feRun Minv K Mfd D fvec srcf ng idisp dt dx n).u g
        - (feRun Minv K Mfd D fvec srcf ng idisp dt dx n).uold g)
    ∧ (feRun Minv K Mfd D fvec srcf ng idisp dt dx (n + 1)).uold
        = (feRun Minv K Mfd D fvec srcf ng idisp dt dx n).u := by
  rw [seHomoRun_succ, seHetRun_succ, feRun_succ]
  exact ⟨rfl, rfl, rfl, rfl, rfl, rfl⟩

/-- C3: the shared degree of freedom of two adjacent elements (node
`t*N`, `1 ≤ t < ne`) holds the sum of the two incident elemental corner
entries, exactly two element blocks cover it, and the homogeneous
assign-then-patch assembly produces the same two-corner sum there. -/
theorem C3_shared_dof (Ke : ℕ → ℕ → ℚ) (mu w : ℕ → ℚ) (Ji J : ℚ)
    (l1d : ℕ → ℕ → ℚ) (N ne t : ℕ) (hN : 1 ≤ N) (ht : 1 ≤ t)
    (htne : t < ne) :
    seHetK mu w Ji J l1d N ne (t * N) (t * N)
      = KeHetM mu w Ji J l1d N t N N
        + KeHetM mu w Ji J l1d N (t + 1) 0 0
    ∧ ((Finset.range ne).filter (covP N (t * N) (t * N))).card = 2
    ∧ seHomoK Ke N ne (t * N) (t * N) = Ke 0 0 + Ke N N := by
  refine ⟨?_, covP_diag_card N ne t hN ht htne, ?_⟩
  · unfold seHetK
    rw [accAssemble_shared_diag _ N ne t hN ht htne,
      (show t - 1 + 1 = t by omega)]
  · rw [seHomoK_apply, if_pos ⟨rfl, t, htne, ht, rfl⟩]

/-- C5: the W7 mass and stiffness matrices and the heterogeneous
spectral-element global stiffness matrix are symmetric, for arbitrary
material arrays. -/
theorem C5_symmetry (ro h mu hh muH wH : ℕ → ℚ) (JiH JH : ℚ)
    (l1dH : ℕ → ℕ → ℚ) (N ne nx : ℕ) (a b : ℕ) :
    W7M ro h nx a b = W7M ro h nx b a
    ∧ W7K mu hh nx a b = W7K mu hh nx b a
    ∧ seHetK muH wH JiH JH l1dH N ne a b
        = seHetK muH wH JiH JH l1dH N ne b a := by
  refine ⟨W7M_symm ro h nx a b, W7K_symm mu hh nx a b, ?_⟩
  unfold seHetK
  refine accAssemble_symm _ N ne (fun e1 i j => ?_) a b
  unfold KeHetM
  exact Finset.sum_congr rfl (fun k _ => by ring)

/-- C6 (amended): neither assembly validates the material arrays; both
run to completion on any input, and with nonpositive density samples
(and nonnegative geometry/quadrature data) they silently produce
nonpositive mass entries instead of raising an error. -/
theorem C6_no_material_validation (rho : ℤ → ℚ) (w : ℕ → ℚ) (J : ℚ)
    (roF hF : ℕ → ℚ) (N ne nxF : ℕ)
    (hrho : ∀ g, rho g ≤ 0) (hw : ∀ l, 0 ≤ w l) (hJ : 0 ≤ J)
    (hroF : ∀ k, roF k ≤ 0) (hhF : ∀ k, 0 ≤ hF k) :
    (∀ g : ℤ, (seHetMass rho w J N ne).M g ≤ 0)
    ∧ (∀ i j, W7M roF hF nxF i j ≤ 0) := by
  refine ⟨seHetMass_nonpos rho w J N ne hrho hw hJ, fun i j => ?_⟩
  have hm : ∀ a b : ℕ, roF a * hF b ≤ 0 := fun a b =>
    mul_nonpos_of_nonpos_of_nonneg (hroF a) (hhF b)
  unfold W7M
  split_ifs <;>
    linarith [hm 0 0, hm (nxF - 1) (nxF - 2), hm (i - 1) (i - 1), hm i i]

/-- C6 counterexample: the heterogeneous mass assembly accepts the
(physically invalid) density `rho = -1` and returns the finished mass
vector `[-1, -2, -1]` (N = 1, ne = 2) instead of failing. -/
theorem C6_no_material_validation_cex :
    (seHetMass (fun _ => -1) (fun _ => 1) 1 1 2).M 0 = -1
    ∧ (seHetMass (fun _ => -1) (fun _ => 1) 1 1 2).M 1 = -2
    ∧ (seHetMass (fun _ => -1) (fun _ => 1) 1 1 2).M 2 = -1
    ∧ ¬(0 < (-1 : ℚ)) := by
  refine ⟨?_, ?_, ?_, by norm_num⟩ <;>
    norm_num [seHetMass, seHetMassElem, List.range_succ, List.range_zero,
      List.foldl_append, List.foldl_cons, List.foldl_nil, List.nil_append]

/-- C7 (amended): the two W5 loops pin their designated nodes to zero
after every step (Chebyshev: `u[0]` and `u[nx]`; Fourier: `sp[1]`,
`sp[nx-1]`, `p[0]`, `p[nx-1]`, `ap[0]`, `ap[nx-1]` - for the Fourier
field the pinned nodes are 1 and nx-1, not the boundary node 0); the
W9 spectral-element loop zeroes nothing. -/
theorem C7_boundary_pinning (D : ℕ → ℕ → ℚ) (mu rho sg srcf : ℕ → ℚ)
    (fd2 : (ℕ → ℚ) → ℕ → ℚ) (c0 dt0 dx0 : ℚ) (sg2 srcf2 : ℕ → ℚ)
    (nx nx2 idisp idisp2 : ℕ) (dt : ℚ) (n m : ℕ) :
    ((chebyRun D mu rho sg srcf nx idisp dt (n + 1)).u 0 = 0
      ∧ (chebyRun D mu rho sg srcf nx idisp dt (n + 1)).u nx = 0)
    ∧ ((fourierRun fd2 c0 dt0 dx0 sg2 srcf2 nx2 idisp2 (m + 1)).sp 1 = 0
      ∧ (fourierRun fd2 c0 dt0 dx0 sg2 srcf2 nx2 idisp2 (m + 1)).sp
          (nx2 - 1) = 0
      ∧ (fourierRun fd2 c0 dt0 dx0 sg2 srcf2 nx2 idisp2 (m + 1)).p 0 = 0
      ∧ (fourierRun fd2 c0 dt0 dx0 sg2 srcf2 nx2 idisp2 (m + 1)).p
          (nx2 - 1) = 0
      ∧ (fourierRun fd2 c0 dt0 dx0 sg2 srcf2 nx2 idisp2 (m + 1)).ap 0 = 0
      ∧ (fourierRun fd2 c0 dt0 dx0 sg2 srcf2 nx2 idisp2 (m + 1)).ap
          (nx2 - 1) = 0) :=
  ⟨chebyRun_boundary_zero D mu rho sg srcf nx idisp dt n,
    fourierRun_boundary_zero fd2 c0 dt0 dx0 sg2 srcf2 nx2 idisp2 m⟩

/-- C7 counterexample: the homogeneous W9 loop performs no boundary
zeroing; with an identity inverse mass matrix, zero stiffness and a
source at node 0, the first grid point is nonzero right after the first
step. -/
theorem C7_boundary_pinning_cex :
    (seHomoRun (fun i j => if i = j then 1 else 0) (fun _ _ => 0)
        [5, 7] 1 2 1 1 1).u 0 = 7
    ∧ (7 : ℚ) ≠ 0 := by
  refine ⟨?_, by norm_num⟩
  norm_num [seHomoRun, seHomoStep, seStep, forceVec, pyGetD, pyIdx, matVec,
    List.range_succ, List.range_zero, List.foldl_append, List.foldl_cons,
    List.foldl_nil, List.nil_append, Finset.sum_range_succ,
    Finset.sum_range_zero]

/-- C2 (amended): the homogeneous spectral-element global mass vector
sums exactly to density times domain length (`rho * ne * dx`) whenever
the quadrature weights sum to 2 and the Jacobian is half the element
size, but the W7 finite-element mass matrix total is
`p*dx*(3*nx-5)/3`, which is short of density times domain length
`p*dx*(nx-1)` by `2*p*dx/3`. -/
theorem C2_total_mass (rho J dx p : ℚ) (w : ℕ → ℚ) (N ne nx : ℕ)
    (hne : 1 ≤ ne) (hw : ∑ j in Finset.range (N + 1), w j = 2)
    (hJ : J = dx / 2) (hnx : 3 ≤ nx) :
    ∑ x in Finset.range (ne * N + 1),
        (seHomoMass rho J w N ne).M (x : ℤ)
      = rho * ((ne : ℚ) * dx)
    ∧ ∑ i in Finset.range nx, ∑ j in Finset.range nx,
        W7M (fun _ => p) (fun _ => dx) nx i j
      = p * dx * (3 * (nx : ℚ) - 5) / 3 := by
  refine ⟨?_, W7M_uniform_total p dx nx hnx⟩
  obtain ⟨-, -, -, hsum⟩ := seHomoMass_spec rho J w N ne hne
  rw [hsum]
  unfold MeHomo
  rw [hJ]
  have hterm : ∀ j ∈ Finset.range (N + 1),
      rho * w j * (dx / 2) = rho * (dx / 2) * w j := by
    intro j _
    ring
  rw [Finset.sum_congr rfl hterm, ← Finset.mul_sum, hw]
  ring

/-- C2 counterexample: with four grid points and unit density and
spacing the W7 mass total is `7/3`, while density times domain length is
`1 * 3 = 3`. -/
theorem C2_total_mass_cex :
    ∑ i in Finset.range 4, ∑ j in Finset.range 4,
        W7M (fun _ => 1) (fun _ => 1) 4 i j = 7 / 3
    ∧ (7 / 3 : ℚ) ≠ 1 * ((4 : ℚ) - 1) := by
  refine ⟨?_, by norm_num⟩
  norm_num [W7M, Finset.sum_range_succ, Finset.sum_range_zero]

/-- C4 (amended): both spectral-element global stiffness matrices have
all row sums zero over the full degree-of-freedom range whenever the
columns of the basis-derivative table sum to zero, so the constant
vector lies in their null space; but the W7 finite-element stiffness
matrix leaves the off-diagonal boundary entries unassembled and its
first row sums to `mu[0]/h[0]`, not zero. -/
theorem C4_stiffness_nullspace (mu w : ℕ → ℚ) (Ji J muQ JiQ : ℚ)
    (l1d : ℕ → ℕ → ℚ) (muF hF : ℕ → ℚ) (N ne nx : ℕ)
    (hl : ∀ k ≤ N, ∑ i in Finset.range (N + 1), l1d i k = 0)
    (hN : 1 ≤ N) (hne : 1 ≤ ne) (hnx : 3 ≤ nx) (a : ℕ) :
    (∑ b in Finset.range (ne * N + 1), seHetK mu w Ji J l1d N ne a b = 0)
    ∧ (∑ b in Finset.range (ne * N + 1),
        seHomoK (KeHomoM muQ JiQ w l1d N) N ne a b = 0)
    ∧ (∑ j in Finset.range nx, W7K muF hF nx 0 j = muF 0 / hF 0) := by
  refine ⟨?_, ?_, ?_⟩
  · unfold seHetK
    exact accAssemble_row_sum _ N ne
      (fun e1 i => KeHetM_row_sum mu w Ji J l1d N (e1 + 1) hl i) a
  · have hcg : ∀ b ∈ Finset.range (ne * N + 1),
        seHomoK (KeHomoM muQ JiQ w l1d N) N ne a b
          = accAssemble (fun _ => KeHomoM muQ JiQ w l1d N) N ne a b := by
      intro b _
      exact seHomoK_eq_acc (KeHomoM muQ JiQ w l1d N) N ne hN hne a b
    rw [Finset.sum_congr rfl hcg]
    exact accAssemble_row_sum _ N ne
      (fun _ i => KeHomoM_row_sum muQ JiQ w l1d N hl i) a
  · have hpt : ∀ j ∈ Finset.range nx, W7K muF hF nx 0 j
        = if j = 0 then muF 0 / hF 0 else 0 := by
      intro j _
      unfold W7K
      by_cases hj : j = 0
      · rw [if_pos (show (0 : ℕ) = 0 ∧ j = 0 from ⟨rfl, hj⟩), if_pos hj]
      · rw [if_neg (show ¬((0 : ℕ) = 0 ∧ j = 0) from fun hc => hj hc.2),
          if_neg (show ¬((0 : ℕ) = nx - 1 ∧ j = nx - 1) from
            fun hc => by omega),
          if_neg (show ¬(1 ≤ (0 : ℕ) ∧ (0 : ℕ) ≤ nx - 2 ∧ 1 ≤ j ∧
            j ≤ nx - 2) from fun hc => by omega),
          if_neg hj]
    rw [Finset.sum_congr rfl hpt,
      Finset.sum_ite_eq' (Finset.range nx) 0 (fun _ => muF 0 / hF 0),
      if_pos (Finset.mem_range.mpr (by omega))]

/-- C4 counterexample: for `nx = 4` with unit shear modulus and spacing
every row of the W7 stiffness matrix sums to `1`, so `K @ 1` is nowhere
zero. -/
theorem C4_stiffness_nullspace_cex :
    ∑ j in Finset.range 4, W7K (fun _ => 1) (fun _ => 1) 4 0 j = 1
    ∧ ∑ j in Finset.range 4, W7K (fun _ => 1) (fun _ => 1) 4 1 j = 1
    ∧ ∑ j in Finset.range 4, W7K (fun _ => 1) (fun _ => 1) 4 2 j = 1
    ∧ ∑ j in Finset.range 4, W7K (fun _ => 1) (fun _ => 1) 4 3 j = 1
    ∧ (1 : ℚ) ≠ 0 := by
  refine ⟨?_, ?_, ?_, ?_, by norm_num⟩ <;>
    norm_num [W7K, Finset.sum_range_succ, Finset.sum_range_zero]

/-- C8: snapshots are taken exactly at the steps divisible by the
stride: row `r` of the snapshot array holds the field of step
`r*idisp` once that step has run and zeros otherwise, the number of
recording steps among `0..n-1` is exactly `ceil(n/idisp)`, rows are
never altered by later steps (copy semantics), and the same policy
governs the Fourier-field snapshot array of the W5 Fourier loop. -/
theorem C8_snapshot_policy (Minv K : ℕ → ℕ → ℚ) (src : List ℚ)
    (isrc ng idisp : ℕ) (dt : ℚ) (fd2 : (ℕ → ℚ) → ℕ → ℚ)
    (c0 dt0 dx0 : ℚ) (sg srcf : ℕ → ℚ) (nx2 : ℕ) (hid : 0 < idisp) :
    (∀ n r c, (seHomoRun Minv K src isrc ng idisp dt n).res r c
        = if r * idisp < n then
            (seHomoRun Minv K src isrc ng idisp dt (r * idisp + 1)).u c
          else 0)
    ∧ (∀ n, ((Finset.range n).filter (fun it => it % idisp = 0)).card
        = (n + idisp - 1) / idisp)
    ∧ (∀ m n r c, m ≤ n → r * idisp < m →
        (seHomoRun Minv K src isrc ng idisp dt n).res r c
          = (seHomoRun Minv K src isrc ng idisp dt m).res r c)
    ∧ (∀ n r c, (n + idisp - 1) / idisp ≤ r →
        (seHomoRun Minv K src isrc ng idisp dt n).res r c = 0)
    ∧ (∀ n r c, (fourierRun fd2 c0 dt0 dx0 sg srcf nx2 idisp n).resSp r c
        = if r * idisp < n then
            (fourierRun fd2 c0 dt0 dx0 sg srcf nx2 idisp
              (r * idisp + 1)).sp c
          else 0) := by
  refine ⟨seHomoRun_res_spec Minv K src isrc ng idisp dt hid,
    snapshot_count idisp hid, ?_, ?_,
    fourierRun_resSp_spec fd2 c0 dt0 dx0 sg srcf nx2 idisp hid⟩
  · intro m n r c hmn hrm
    rw [seHomoRun_res_spec Minv K src isrc ng idisp dt hid n r c,
      seHomoRun_res_spec Minv K src isrc ng idisp dt hid m r c,
      if_pos (by omega), if_pos hrm]
  · intro n r c hr
    rw [seHomoRun_res_spec Minv K src isrc ng idisp dt hid n r c]
    have hdm := Nat.div_add_mod (n + idisp - 1) idisp
    have hlt := Nat.mod_lt (n + idisp - 1) hid
    have hmul := Nat.mul_le_mul_left idisp hr
    have hcomm : idisp * r = r * idisp := Nat.mul_comm idisp r
    rw [if_neg (by omega)]

/-- C9: while the source is active the force vector injects
`src[it-1]` at node `isrc-1`; for positive step index that is the
wavelet sample `it-1`, but at the very first step (`it = 0`) the
Python read `src[-1]` wraps around and injects the LAST element of the
source array. -/
theorem C9_source_injection (src : List ℚ) (isrc ng : ℕ)
    (h1 : 1 ≤ isrc) :
    (∀ it, it < src.length →
      forceVec src isrc ng it (isrc - 1) = pyGetD src ((it : ℤ) - 1))
    ∧ (∀ (it g : ℕ), ¬((g : ℤ) = pyIdx ng ((isrc : ℤ) - 1)) →
        forceVec src isrc ng it g = 0)
    ∧ (∀ it : ℕ, 1 ≤ it →
        pyGetD src ((it : ℤ) - 1) = src.getD (it - 1) 0)
    ∧ (0 < src.length →
        forceVec src isrc ng 0 (isrc - 1)
          = src.getD (src.length - 1) 0) := by
  refine ⟨fun it hit => forceVec_inject src isrc ng it h1 hit,
    fun it g hg => forceVec_zero src isrc ng it g hg,
    fun it h1t => pyGetD_pos src it h1t, fun hlen => ?_⟩
  rw [forceVec_inject src isrc ng 0 h1 hlen]
  exact pyGetD_first src hlen

/-- C10: every entry of `get_cheby_matrix(nx)` is a finite real: the
loop's off-diagonal formula divides by zero exactly on the two endpoint
diagonal positions (transiently `none` in the `Option` model), and
those two entries are unconditionally overwritten with
`(2*nx^2+1)/6` and its negation before the matrix is returned. -/
theorem C10_cheby_matrix_finite (nx : ℕ) (h1 : 1 ≤ nx) :
    (∀ i j, i ≤ nx → j ≤ nx → (get_cheby_matrix nx i j).isSome)
    ∧ chebyEntry nx 0 0 = none
    ∧ chebyEntry nx nx nx = none
    ∧ get_cheby_matrix nx 0 0 = some ((2 * (nx : ℝ) ^ 2 + 1) / 6)
    ∧ get_cheby_matrix nx nx nx
        = some (-((2 * (nx : ℝ) ^ 2 + 1) / 6)) :=
  ⟨fun i j hi hj => get_cheby_matrix_isSome nx h1 i j hi hj,
    chebyEntry_corner0_none nx, chebyEntry_cornerN_none nx,
    get_cheby_matrix_00 nx, get_cheby_matrix_NN nx h1⟩

/-- Concrete instance of the C2 mass-total theorem. -/
theorem C2_total_mass_witness :
    (1 ≤ 1)
    ∧ (∑ j in Finset.range (1 + 1), (fun _ : ℕ => (1 : ℚ)) j = 2)
    ∧ ((1 : ℚ) = 2 / 2)
    ∧ (3 ≤ 3)
    ∧ (∑ x in Finset.range (1 * 1 + 1),
          (seHomoMass 1 1 (fun _ => 1) 1 1).M (x : ℤ)
        = 1 * (((1 : ℕ) : ℚ) * 2)
      ∧ ∑ i in Finset.range 3, ∑ j in Finset.range 3,
          W7M (fun _ => (1 : ℚ)) (fun _ => 2) 3 i j
        = 1 * 2 * (3 * ((3 : ℕ) : ℚ) - 5) / 3) :=
  ⟨by norm_num, by norm_num [Finset.sum_range_succ], by norm_num,
    by norm_num,
    C2_total_mass 1 1 2 1 (fun _ => 1) 1 1 3 (by norm_num)
      (by norm_num [Finset.sum_range_succ]) (by norm_num) (by norm_num)⟩

/-- Concrete instance of the C3 shared-degree-of-freedom theorem. -/
theorem C3_shared_dof_witness :
    (1 ≤ 1) ∧ (1 ≤ 1) ∧ (1 < 2)
    ∧ (seHetK (fun _ => 0) (fun _ => 0) 0 0 (fun _ _ => 0) 1 2
          (1 * 1) (1 * 1)
        = KeHetM (fun _ => 0) (fun _ => 0) 0 0 (fun _ _ => 0) 1 1 1 1
          + KeHetM (fun _ => 0) (fun _ => 0) 0 0 (fun _ _ => 0) 1
              (1 + 1) 0 0
      ∧ ((Finset.range 2).filter (covP 1 (1 * 1) (1 * 1))).card = 2
      ∧ seHomoK (fun _ _ => 0) 1 2 (1 * 1) (1 * 1) = (0 : ℚ) + 0) :=
  ⟨by decide, by decide, by decide,
    C3_shared_dof (fun _ _ => 0) (fun _ => 0) (fun _ => 0) 0 0
      (fun _ _ => 0) 1 2 1 (by decide) (by decide) (by decide)⟩

/-- Concrete instance of the C4 null-space theorem. -/
theorem C4_stiffness_nullspace_witness :
    (∀ k ≤ 1, ∑ i in Finset.range (1 + 1),
        (fun i _ : ℕ => if i = 0 then -(1 : ℚ) / 2
          else if i = 1 then 1 / 2 else 0) i k = 0)
    ∧ (1 ≤ 1) ∧ (1 ≤ 1) ∧ (3 ≤ 3)
    ∧ ((∑ b in Finset.range (1 * 1 + 1),
          seHetK (fun _ => 1) (fun _ => 1) 1 1
            (fun i _ => if i = 0 then -(1 : ℚ) / 2
              else if i = 1 then 1 / 2 else 0) 1 1 0 b = 0)
      ∧ (∑ b in Finset.range (1 * 1 + 1),
          seHomoK (KeHomoM 1 1 (fun _ => 1)
            (fun i _ => if i = 0 then -(1 : ℚ) / 2
              else if i = 1 then 1 / 2 else 0) 1) 1 1 0 b = 0)
      ∧ (∑ j in Finset.range 3,
          W7K (fun _ => 1) (fun _ => 1) 3 0 j = (1 : ℚ) / 1)) :=
  ⟨by
      intro k hk
      norm_num [Finset.sum_range_succ],
    by decide, by decide, by decide,
    C4_stiffness_nullspace (fun _ => 1) (fun _ => 1) 1 1 1 1
      (fun i _ => if i = 0 then -(1 : ℚ) / 2
        else if i = 1 then 1 / 2 else 0)
      (fun _ => 1) (fun _ => 1) 1 1 3
      (by
        intro k hk
        norm_num [Finset.sum_range_succ])
      (by decide) (by decide) (by decide) 0⟩

/-- Concrete instance of the C6 no-validation theorem. -/
theorem C6_no_material_validation_witness :
    (∀ g : ℤ, (fun _ : ℤ => (-1 : ℚ)) g ≤ 0)
    ∧ (∀ l : ℕ, (0 : ℚ) ≤ (fun _ : ℕ => (1 : ℚ)) l)
    ∧ ((0 : ℚ) ≤ 1)
    ∧ (∀ k : ℕ, (fun _ : ℕ => (-1 : ℚ)) k ≤ 0)
    ∧ (∀ k : ℕ, (0 : ℚ) ≤ (fun _ : ℕ => (1 : ℚ)) k)
    ∧ ((∀ g : ℤ, (seHetMass (fun _ => -1) (fun _ => 1) 1 1 2).M g ≤ 0)
      ∧ (∀ i j, W7M (fun _ => -1) (fun _ => 1) 3 i j ≤ 0)) :=
  ⟨fun g => by norm_num, fun l => by norm_num, by norm_num,
    fun k => by norm_num, fun k => by norm_num,
    C6_no_material_validation (fun _ => -1) (fun _ => 1) 1 (fun _ => -1)
      (fun _ => 1) 1 2 3 (fun g => by norm_num) (fun l => by norm_num)
      (by norm_num) (fun k => by norm_num) (fun k => by norm_num)⟩

/-- Concrete instance of the C8 snapshot-policy theorem. -/
theorem C8_snapshot_policy_witness :
    0 < 1
    ∧ ((∀ n r c,
          (seHomoRun (fun _ _ => 0) (fun _ _ => 0) [] 0 0 1 0 n).res r c
          = if r * 1 < n then
              (seHomoRun (fun _ _ => 0) (fun _ _ => 0) [] 0 0 1 0
                (r * 1 + 1)).u c
            else 0)
      ∧ (∀ n, ((Finset.range n).filter (fun it => it % 1 = 0)).card
          = (n + 1 - 1) / 1)
      ∧ (∀ m n r c, m ≤ n → r * 1 < m →
          (seHomoRun (fun _ _ => 0) (fun _ _ => 0) [] 0 0 1 0 n).res r c
            = (seHomoRun (fun _ _ => 0) (fun _ _ => 0) [] 0 0 1 0
                m).res r c)
      ∧ (∀ n r c, (n + 1 - 1) / 1 ≤ r →
          (seHomoRun (fun _ _ => 0) (fun _ _ => 0) [] 0 0 1 0 n).res r c
            = 0)
      ∧ (∀ n r c,
          (fourierRun (fun f => f) 0 0 0 (fun _ => 0) (fun _ => 0)
            0 1 n).resSp r c
          = if r * 1 < n then
              (fourierRun (fun f => f) 0 0 0 (fun _ => 0) (fun _ => 0)
                0 1 (r * 1 + 1)).sp c
            else 0)) :=
  ⟨by decide,
    C8_snapshot_policy (fun _ _ => 0) (fun _ _ => 0) [] 0 0 1 0
      (fun f => f) 0 0 0 (fun _ => 0) (fun _ => 0) 0 (by decide)⟩

/-- Concrete instance of the C9 source-injection theorem. -/
theorem C9_source_injection_witness :
    1 ≤ 1
    ∧ ((∀ it, it < [(5 : ℚ), 7].length →
          forceVec [5, 7] 1 2 it (1 - 1) = pyGetD [5, 7] ((it : ℤ) - 1))
      ∧ (∀ (it g : ℕ), ¬((g : ℤ) = pyIdx 2 (((1 : ℕ) : ℤ) - 1)) →
          forceVec [5, 7] 1 2 it g = 0)
      ∧ (∀ it : ℕ, 1 ≤ it →
          pyGetD [5, 7] ((it : ℤ) - 1) = [(5 : ℚ), 7].getD (it - 1) 0)
      ∧ (0 < [(5 : ℚ), 7].length →
          forceVec [5, 7] 1 2 0 (1 - 1)
            = [(5 : ℚ), 7].getD ([(5 : ℚ), 7].length - 1) 0)) :=
  ⟨by decide, C9_source_injection [5, 7] 1 2 (by decide)⟩

/-- Concrete instance of the C10 finite-matrix theorem. -/
theorem C10_cheby_matrix_finite_witness :
    1 ≤ 1
    ∧ ((∀ i j, i ≤ 1 → j ≤ 1 → (get_cheby_matrix 1 i j).isSome)
      ∧ chebyEntry 1 0 0 = none
      ∧ chebyEntry 1 1 1 = none
      ∧ get_cheby_matrix 1 0 0 = some ((2 * ((1 : ℕ) : ℝ) ^ 2 + 1) / 6)
      ∧ get_cheby_matrix 1 1 1
          = some (-((2 * ((1 : ℕ) : ℝ) ^ 2 + 1) / 6))) :=
  ⟨by decide, C10_cheby_matrix_finite 1 (by decide)⟩
